import Mathlib

/-!
# Verification of the reenix backup allocator (`src/kernel/mm/backup.rs`)

Shallow embedding of the boundary-tag free-list allocator.

Modelling conventions:

* The target is 32-bit x86 (reenix), so `size_of::<Tag>() = 4` and
  `page::SIZE = 4096`; these constants appear literally.
* Memory is modelled at tag granularity: `Mem := Nat → Nat` maps a byte
  address to the tag word stored there.  Tag words are only ever read and
  written at block-header addresses, and the payload fill operations of the
  source (`write_bytes` with `ALOC_FILL`/`FREE_FILL`, and the zero fill in
  `setup`) write strictly inside block payloads, so they never alias a tag
  word; they are therefore not represented in this model.
* Machine integers are `Nat`.  All additions are exact (arena addresses are
  far below `2^32`).  The one subtraction that can underflow in the source,
  `new_start_size = split_low - payload_start` in `allocate_pages` when the
  carve begins exactly at the block's payload start, writes a word that is
  immediately overwritten by the carve's own tag at the same address, so the
  resulting state is identical under truncated and wrapping subtraction.
* `assert!`/`bassert!`/`expect` are fatal in the source; they are modelled as
  no-ops (for `read_tag(..).expect(..)` the write is skipped when the address
  is out of the arena).  The theorems below show the guarded conditions hold
  in the states that matter.
* The traversal loops are written with an explicit fuel argument (structural
  recursion) so that every definition evaluates by kernel reduction; the
  `_eq` lemmas recover the natural recursive unfolding.
-/

namespace Backup

/-- Tag-granular memory: the tag word stored at each byte address. -/
abbrev Mem := Nat → Nat

/-- `Tag::size`: every bit except the lowest. -/
def wsize (w : Nat) : Nat := w - w % 2

/-- `w | 0x1` for a natural number word. -/
def orOne (w : Nat) : Nat := if w % 2 = 1 then w else w + 1

/-- `Tag::set_allocated`: set the low bit, preserving size. -/
def setAllocated (w : Nat) : Nat := orOne w

/-- `Tag::set_free`: rewrite the word as just the size. -/
def setFree (w : Nat) : Nat := wsize w

/-- `Tag::set_size`: rewrite size, preserving the current allocated bit. -/
def setSize (w s : Nat) : Nat := if w % 2 = 1 then orOne s else s

/-- `Tag::next`: address of the next tag, `payload_start + size`. -/
def tagNext (m : Mem) (a : Nat) : Nat := a + 4 + wsize (m a)

/-- Pointwise memory update (a single tag-word store). -/
def memSet (m : Mem) (a v : Nat) : Mem := fun x => if x = a then v else m x

/-- `pg_size`: number of pages needed to hold `u` bytes (round up). -/
def pgSize (u : Nat) : Nat := (u + 4095) / 4096

/-- Round a size up to `size_of::<Tag>() = 4` alignment (`(n + 3) & !3`). -/
def round4 (n : Nat) : Nat := ((n + 3) / 4) * 4

/-- `Tag::get_page_aligned_part`: pure placement query.  Given the tag at
`a` (free, by the caller's guard) and a request of `pgs` pages, place the
pages as far toward the high end of the block as possible; returns the
addresses `(carved_start_tag, carve_end)` or `none` if the block is too
small once alignment padding is accounted for. -/
def getPageAlignedPart (m : Mem) (a : Nat) (pgs : Nat) : Option (Nat × Nat) :=
  let nbytes := 4096 * pgs
  let pre := (4096 - (a + 4) % 4096) % 4096
  if wsize (m a) < nbytes + pre then none
  else
    let e := tagNext m a - tagNext m a % 4096
    some ((e / 4096 - pgs) * 4096 - 4, e)

/-- `BackupAllocator`'s state. -/
structure Alloc where
  buf : Nat
  pages : Nat
  largest : Nat
  threshold : Nat
  mem : Mem

/-- `byte_len`: arena length in bytes. -/
def byteLen (s : Alloc) : Nat := 4096 * s.pages

/-- One past the last arena byte. -/
def arenaEnd (s : Alloc) : Nat := s.buf + byteLen s

/-- `read_tag` succeeds exactly on addresses in `[buf, buf + byte_len)`. -/
def readOk (s : Alloc) (a : Nat) : Prop := s.buf ≤ a ∧ a < arenaEnd s

instance (s : Alloc) (a : Nat) : Decidable (readOk s a) := by
  unfold readOk; infer_instance

/-! ## The free-list walker, abstractly: tag chains -/

/-- Fuelled list of tag addresses reachable from `a` by `next`, staying in
`[st, nd)` (the `read_tag` bound re-checked on every step). -/
def tagListAux (m : Mem) (st nd : Nat) : Nat → Nat → List Nat
  | 0, _ => []
  | f + 1, a => if st ≤ a ∧ a < nd then a :: tagListAux m st nd f (tagNext m a) else []

/-- Tag addresses reachable from `a` (fuel `nd` always suffices). -/
def tagList (m : Mem) (st nd a : Nat) : List Nat := tagListAux m st nd nd a

/-- Fuelled: the address at which the walk from `a` first leaves `[st, nd)`. -/
def chainEndAux (m : Mem) (st nd : Nat) : Nat → Nat → Nat
  | 0, a => a
  | f + 1, a => if st ≤ a ∧ a < nd then chainEndAux m st nd f (tagNext m a) else a

/-- The address at which the walk from `a` first leaves `[st, nd)`.  The
arena is exactly partitioned into tagged blocks iff this equals `nd`. -/
def chainEnd (m : Mem) (st nd a : Nat) : Nat := chainEndAux m st nd nd a

/-! ## Operations -/

/-- Result of the `allocate_small` scan. -/
inductive SmallRes where
  | exact (t : Nat)
  | finish (best : Option Nat)
  deriving DecidableEq

/-- The scan loop of `allocate_small` (lines 153-169): exact-fit shortcut,
otherwise record the candidate, replacing the previous one whenever the
recorded candidate's size exceeds the request (`usize::MAX` for none). -/
def smallLoopAux (m : Mem) (st nd req : Nat) : Nat → Option Nat → Nat → SmallRes
  | 0, best, _ => SmallRes.finish best
  | f + 1, best, c =>
    if st ≤ c ∧ c < nd then
      if m c % 2 = 0 ∧ req ≤ wsize (m c) then
        if wsize (m c) = req ∨ wsize (m c) = req + 4 then SmallRes.exact c
        else if req < (match best with | none => 4294967295 | some t => wsize (m t)) then
          smallLoopAux m st nd req f (some c) (tagNext m c)
        else smallLoopAux m st nd req f best (tagNext m c)
      else smallLoopAux m st nd req f best (tagNext m c)
    else SmallRes.finish best

/-- The `allocate_small` scan with sufficient fuel. -/
def smallLoop (m : Mem) (st nd req : Nat) (best : Option Nat) (c : Nat) : SmallRes :=
  smallLoopAux m st nd req nd best c

/-- The split step of `allocate_small` (lines 171-180): shrink the chosen
tag to the request, mark it allocated, and write a fresh free tag for the
remainder at the new `next` address (if it is a readable tag address). -/
def smallSplit (m : Mem) (st nd t req : Nat) : Mem :=
  if st ≤ tagNext (memSet m t (setAllocated (setSize (m t) req))) t
      ∧ tagNext (memSet m t (setAllocated (setSize (m t) req))) t < nd then
    memSet (memSet m t (setAllocated (setSize (m t) req)))
      (tagNext (memSet m t (setAllocated (setSize (m t) req))) t)
      (wsize (m t) - 4 - req)
  else memSet m t (setAllocated (setSize (m t) req))

/-- `BackupAllocator::allocate_small`. -/
def allocateSmall (s : Alloc) (req : Nat) : Option Nat × Alloc :=
  match smallLoop s.mem s.buf (arenaEnd s) req none s.buf with
  | SmallRes.exact t => (some (t + 4), { s with mem := memSet s.mem t (setAllocated (s.mem t)) })
  | SmallRes.finish none => (none, s)
  | SmallRes.finish (some t) =>
    (some (t + 4), { s with mem := smallSplit s.mem s.buf (arenaEnd s) t req })

/-- The scan loop of `allocate_pages` (lines 190-199): keep the **last**
successful page-aligned carve (`.map(..).or(best)`). -/
def pagesLoopAux (m : Mem) (st nd pgs : Nat) :
    Nat → Option (Nat × Nat × Nat) → Nat → Option (Nat × Nat × Nat)
  | 0, best, _ => best
  | f + 1, best, c =>
    if st ≤ c ∧ c < nd then
      let best' := if m c % 2 = 0 then
          match getPageAlignedPart m c pgs with
          | some (lo, hi) => some (c, lo, hi)
          | none => best
        else best
      pagesLoopAux m st nd pgs f best' (tagNext m c)
    else best

/-- The `allocate_pages` scan with sufficient fuel. -/
def pagesLoop (m : Mem) (st nd pgs : Nat) (best : Option (Nat × Nat × Nat)) (c : Nat) :
    Option (Nat × Nat × Nat) :=
  pagesLoopAux m st nd pgs nd best c

/-- The split step of `allocate_pages` (lines 207-222): write the high free
remainder tag (when the carve stops short of the block's next tag), rewrite
the original tag as the low free remainder, then write the carved allocated
tag (both outer writes only when the address is a readable tag address; the
source instead panics there, which the invariant rules out). -/
def pagesSplit (m : Mem) (st nd t lo hi pgs : Nat) : Mem :=
  let m1 := if hi ≠ tagNext m t then
      (if st ≤ hi ∧ hi < nd then
        memSet m hi (setFree (setSize (m hi) (tagNext m t - (hi + 4))))
      else m)
    else m
  let m2 := memSet m1 t (setFree (setSize (m1 t) (lo - (t + 4))))
  if st ≤ lo ∧ lo < nd then memSet m2 lo (setAllocated (setSize (m2 lo) (4096 * pgs)))
  else m2

/-- `BackupAllocator::allocate_pages` (lines 189-228). -/
def allocatePages (s : Alloc) (pgs : Nat) : Option Nat × Alloc :=
  match pagesLoop s.mem s.buf (arenaEnd s) pgs none s.buf with
  | none => (none, s)
  | some (t, lo, hi) =>
    if t = lo ∧ tagNext s.mem t = hi then
      (some (t + 4), { s with mem := memSet s.mem t (setAllocated (s.mem t)) })
    else
      (some (lo + 4), { s with mem := pagesSplit s.mem s.buf (arenaEnd s) t lo hi pgs })

/-- `BackupAllocator::real_allocate`: fast-reject against the cached largest
span, then dispatch on size. -/
def realAllocate (s : Alloc) (size : Nat) : Option Nat × Alloc :=
  if s.largest + 1 < pgSize size then (none, s)
  else if 4096 ≤ size then allocatePages s (pgSize size)
  else allocateSmall s size

/-- The loop of `do_recalculate` (lines 288-304).  Note that after a merge
the cursor still advances to the absorbed tag (`prev = cur`). -/
def recalcLoopAux (st nd : Nat) : Nat → Mem → Nat → Nat → Mem × Nat
  | 0, m, largest, _ => (m, largest)
  | f + 1, m, largest, prev =>
    let c := tagNext m prev
    if st ≤ c ∧ c < nd then
      if m prev % 2 = 0 ∧ m c % 2 = 0 then
        let m2 := memSet m prev (setSize (m prev) (wsize (m prev) + wsize (m c) + 4))
        recalcLoopAux st nd f m2 (max largest (pgSize (wsize (m2 prev)) - 1)) c
      else if m c % 2 = 0 then
        recalcLoopAux st nd f m (max largest (pgSize (wsize (m c)) - 1)) c
      else recalcLoopAux st nd f m largest c
    else (m, largest)

/-- The `do_recalculate` loop with sufficient fuel. -/
def recalcLoop (st nd : Nat) (m : Mem) (largest prev : Nat) : Mem × Nat :=
  recalcLoopAux st nd nd m largest prev

/-- `BackupAllocator::do_recalculate`. -/
def doRecalculate (s : Alloc) : Mem × Nat :=
  let init := if s.mem s.buf % 2 = 0 then pgSize (wsize (s.mem s.buf)) - 1 else 0
  recalcLoop s.buf (arenaEnd s) s.mem init s.buf

/-- `BackupAllocator::recalculate`. -/
def recalculate (s : Alloc) : Alloc :=
  { s with mem := (doRecalculate s).1, largest := (doRecalculate s).2 }

/-- `BackupAllocator::allocate` (public): round to tag alignment, allocate,
then unconditionally recalculate. -/
def allocate (s : Alloc) (size : Nat) (_align : Nat) : Option Nat × Alloc :=
  let p := realAllocate s (round4 size)
  (p.1, recalculate p.2)

/-- `BackupAllocator::deallocate_small`: mark the tag before the pointer
free (its size assertion is fatal in the source, a no-op here). -/
def deallocateSmall (s : Alloc) (ptr : Nat) (_msize : Nat) : Alloc :=
  if s.buf ≤ ptr - 4 ∧ ptr - 4 < arenaEnd s then
    { s with mem := memSet s.mem (ptr - 4) (setFree (s.mem (ptr - 4))) }
  else s

/-- `BackupAllocator::real_deallocate`. -/
def realDeallocate (s : Alloc) (ptr req : Nat) : Alloc :=
  if 4096 ≤ req then deallocateSmall s ptr (4096 * pgSize req) else deallocateSmall s ptr req

/-- `BackupAllocator::deallocate` (public). -/
def deallocate (s : Alloc) (ptr size : Nat) (_align : Nat) : Alloc :=
  recalculate (realDeallocate s ptr (round4 size))

/-- `BackupAllocator::is_used`: the arena is in use unless the first tag is
a single free block spanning the whole arena. -/
def isUsed (s : Alloc) : Bool :=
  !(decide (s.mem s.buf % 2 = 0 ∧ byteLen s - 4 = wsize (s.mem s.buf)))

/-- `BackupAllocator::is_memory_low`. -/
def isMemoryLow (s : Alloc) : Bool :=
  isUsed s && decide (s.threshold < s.pages - s.largest)

/-- `BackupAllocator::contains`. -/
def containsPtr (s : Alloc) (p : Nat) : Bool := decide (s.buf ≤ p ∧ p < arenaEnd s)

/-- `BackupAllocator::setup`: zero the arena and write the single arena-wide
free tag at `buf`. -/
def setup (s : Alloc) : Alloc :=
  { s with mem := fun a =>
      if a = s.buf then byteLen s - 4
      else if s.buf ≤ a ∧ a < arenaEnd s then 0
      else s.mem a }

/-- `BackupAllocator::new` with the backing buffer at `buf` (supplied by the
external page source) and arbitrary prior memory contents `m0`. -/
def newAlloc (buf pages threshold : Nat) (m0 : Mem) : Alloc :=
  setup { buf := buf, pages := pages, largest := pages - 1, threshold := threshold, mem := m0 }

/-- A public call: `allocate` or `deallocate`. -/
inductive Op where
  | alloc (size : Nat)
  | free (ptr size : Nat)

/-- Execute one public call (alignment argument is ignored by the source). -/
def step (s : Alloc) (o : Op) : Alloc :=
  match o with
  | Op.alloc n => (allocate s n 1).2
  | Op.free p n => deallocate s p n 1

/-- Execute a sequence of public calls. -/
def run (s : Alloc) (ops : List Op) : Alloc := ops.foldl step s

/-- The tag addresses of the arena's block chain. -/
def tagsOf (s : Alloc) : List Nat := tagList s.mem s.buf (arenaEnd s) s.buf

/-- The arena invariant: page-aligned buffer, at least one page, the walk
from `buf` leaves the arena exactly at its end (gap/overlap-free partition
into tagged blocks), and every block size is tag-aligned. -/
def Inv (s : Alloc) : Prop :=
  4096 ∣ s.buf ∧ 1 ≤ s.pages ∧
  chainEnd s.mem s.buf (arenaEnd s) s.buf = arenaEnd s ∧
  ∀ b ∈ tagsOf s, 4 ∣ wsize (s.mem b)

/-! ## Basic word lemmas -/

theorem wsize_even (w : Nat) : 2 ∣ wsize w := by
  unfold wsize; omega

theorem wsize_le (w : Nat) : wsize w ≤ w := by
  unfold wsize; omega

theorem wsize_orOne (w : Nat) : wsize (orOne w) = wsize w := by
  unfold wsize orOne; split <;> omega

theorem orOne_mod (w : Nat) : orOne w % 2 = 1 := by
  unfold orOne; split <;> omega

theorem wsize_of_even (w : Nat) (h : w % 2 = 0) : wsize w = w := by
  unfold wsize; omega

theorem wsize_setSize (w s : Nat) (hs : s % 2 = 0) : wsize (setSize w s) = s := by
  unfold setSize orOne wsize
  split
  · split <;> omega
  · omega

theorem setFree_mod (w : Nat) : setFree w % 2 = 0 := by
  unfold setFree wsize; omega

theorem wsize_setFree (w : Nat) : wsize (setFree w) = wsize w := by
  unfold setFree wsize; omega

theorem setAllocated_mod (w : Nat) : setAllocated w % 2 = 1 := orOne_mod w

theorem wsize_setAllocated (w : Nat) : wsize (setAllocated w) = wsize w := wsize_orOne w

theorem round4_dvd (n : Nat) : 4 ∣ round4 n := by
  unfold round4; exact Dvd.intro _ (Nat.mul_comm _ _)

theorem round4_ge (n : Nat) : n ≤ round4 n := by
  unfold round4
  have h := Nat.div_add_mod (n + 3) 4
  have h2 : (n + 3) % 4 < 4 := Nat.mod_lt _ (by omega)
  omega

theorem round4_lt (n : Nat) : round4 n < n + 4 := by
  unfold round4
  have h := Nat.div_add_mod (n + 3) 4
  omega

theorem memSet_same (m : Mem) (a v : Nat) : memSet m a v a = v := by
  unfold memSet; simp

theorem memSet_other (m : Mem) (a v x : Nat) (h : x ≠ a) : memSet m a v x = m x := by
  unfold memSet; simp [h]

/-! ## Fuel irrelevance and unfolding lemmas for the walker -/

theorem tagListAux_irrel (m : Mem) (st nd : Nat) :
    ∀ f g a, nd ≤ a + f → nd ≤ a + g → tagListAux m st nd f a = tagListAux m st nd g a := by
  intro f
  induction f with
  | zero =>
    intro g a hf _
    cases g with
    | zero => rfl
    | succ g =>
      have hlt : ¬(st ≤ a ∧ a < nd) := by omega
      simp only [tagListAux, hlt, if_false]
  | succ f ih =>
    intro g a hf hg
    cases g with
    | zero =>
      have hlt : ¬(st ≤ a ∧ a < nd) := by omega
      simp only [tagListAux, hlt, if_false]
    | succ g =>
      simp only [tagListAux]
      by_cases h : st ≤ a ∧ a < nd
      · simp only [h, if_true]
        have := ih g (tagNext m a) (by unfold tagNext; omega) (by unfold tagNext; omega)
        rw [this]
      · simp only [h, if_false]

theorem tagList_eq (m : Mem) (st nd a : Nat) :
    tagList m st nd a =
      if st ≤ a ∧ a < nd then a :: tagList m st nd (tagNext m a) else [] := by
  unfold tagList
  by_cases h : st ≤ a ∧ a < nd
  · obtain ⟨f, rfl⟩ : ∃ f, nd = f + 1 := ⟨nd - 1, by omega⟩
    have hstep : tagListAux m st (f + 1) (f + 1) a
        = if st ≤ a ∧ a < f + 1 then a :: tagListAux m st (f + 1) f (tagNext m a) else [] := rfl
    rw [hstep, if_pos h, if_pos h,
      tagListAux_irrel m st (f + 1) f (f + 1) (tagNext m a)
        (by unfold tagNext; omega) (by unfold tagNext; omega)]
  · rw [if_neg h]
    cases nd with
    | zero => rfl
    | succ f =>
      have hstep : tagListAux m st (f + 1) (f + 1) a
          = if st ≤ a ∧ a < f + 1 then a :: tagListAux m st (f + 1) f (tagNext m a) else [] := rfl
      rw [hstep, if_neg h]

theorem chainEndAux_irrel (m : Mem) (st nd : Nat) :
    ∀ f g a, nd ≤ a + f → nd ≤ a + g → chainEndAux m st nd f a = chainEndAux m st nd g a := by
  intro f
  induction f with
  | zero =>
    intro g a hf _
    cases g with
    | zero => rfl
    | succ g =>
      have hlt : ¬(st ≤ a ∧ a < nd) := by omega
      simp only [chainEndAux, hlt, if_false]
  | succ f ih =>
    intro g a hf hg
    cases g with
    | zero =>
      have hlt : ¬(st ≤ a ∧ a < nd) := by omega
      simp only [chainEndAux, hlt, if_false]
    | succ g =>
      simp only [chainEndAux]
      by_cases h : st ≤ a ∧ a < nd
      · simp only [h, if_true]
        exact ih g (tagNext m a) (by unfold tagNext; omega) (by unfold tagNext; omega)
      · simp only [h, if_false]

theorem chainEnd_eq (m : Mem) (st nd a : Nat) :
    chainEnd m st nd a =
      if st ≤ a ∧ a < nd then chainEnd m st nd (tagNext m a) else a := by
  unfold chainEnd
  by_cases h : st ≤ a ∧ a < nd
  · obtain ⟨f, rfl⟩ : ∃ f, nd = f + 1 := ⟨nd - 1, by omega⟩
    have hstep : chainEndAux m st (f + 1) (f + 1) a
        = if st ≤ a ∧ a < f + 1 then chainEndAux m st (f + 1) f (tagNext m a) else a := rfl
    rw [hstep, if_pos h, if_pos h]
    exact chainEndAux_irrel m st (f + 1) f (f + 1) (tagNext m a)
      (by unfold tagNext; omega) (by unfold tagNext; omega)
  · rw [if_neg h]
    cases nd with
    | zero => rfl
    | succ f =>
      have hstep : chainEndAux m st (f + 1) (f + 1) a
          = if st ≤ a ∧ a < f + 1 then chainEndAux m st (f + 1) f (tagNext m a) else a := rfl
      rw [hstep, if_neg h]

/-! ## Generic walker lemmas -/

/-- Induction along the walk: a property holds everywhere if it holds past
the end and is preserved by one `tagNext` step. -/
theorem chainInd (m : Mem) (nd : Nat) (P : Nat → Prop)
    (base : ∀ a, nd ≤ a → P a)
    (stp : ∀ a, a < nd → P (tagNext m a) → P a) : ∀ a, P a := by
  have key : ∀ f a, nd ≤ a + f → P a := by
    intro f
    induction f with
    | zero => intro a h; exact base a (by omega)
    | succ f ih =>
      intro a h
      by_cases hc : a < nd
      · exact stp a hc (ih (tagNext m a) (by unfold tagNext; omega))
      · exact base a (by omega)
  intro a
  exact key nd a (by omega)

theorem tagList_mem_bounds (m : Mem) (st nd : Nat) :
    ∀ a, ∀ b ∈ tagList m st nd a, st ≤ b ∧ a ≤ b ∧ b < nd := by
  refine chainInd m nd (fun a => ∀ b ∈ tagList m st nd a, st ≤ b ∧ a ≤ b ∧ b < nd) ?_ ?_
  · intro a ha b hb
    rw [tagList_eq] at hb
    rw [if_neg (by omega)] at hb
    exact absurd hb (List.not_mem_nil b)
  · intro a ha ih b hb
    rw [tagList_eq] at hb
    by_cases hc : st ≤ a ∧ a < nd
    · rw [if_pos hc] at hb
      rcases List.mem_cons.mp hb with h | h
      · omega
      · have := ih b h
        have hn : a ≤ tagNext m a := by unfold tagNext; omega
        omega
    · rw [if_neg hc] at hb
      exact absurd hb (List.not_mem_nil b)

theorem tagList_self_mem (m : Mem) (st nd a : Nat) (h1 : st ≤ a) (h2 : a < nd) :
    a ∈ tagList m st nd a := by
  rw [tagList_eq, if_pos ⟨h1, h2⟩]
  exact List.mem_cons_self a _

theorem tagList_mem_cond (m : Mem) (st nd a b : Nat) (h : b ∈ tagList m st nd a) :
    st ≤ a ∧ a < nd := by
  rw [tagList_eq] at h
  by_cases hc : st ≤ a ∧ a < nd
  · exact hc
  · rw [if_neg hc] at h
    exact absurd h (List.not_mem_nil b)

theorem chainEnd_ge (m : Mem) (st nd : Nat) : ∀ a, a ≤ chainEnd m st nd a := by
  refine chainInd m nd (fun a => a ≤ chainEnd m st nd a) ?_ ?_
  · intro a ha
    rw [chainEnd_eq, if_neg (by omega)]
  · intro a ha ih
    rw [chainEnd_eq]
    by_cases hc : st ≤ a ∧ a < nd
    · rw [if_pos hc]
      have : a ≤ tagNext m a := by unfold tagNext; omega
      omega
    · rw [if_neg hc]

theorem chainEnd_of_mem (m : Mem) (st nd : Nat) :
    ∀ a, ∀ b ∈ tagList m st nd a, chainEnd m st nd a = chainEnd m st nd b := by
  refine chainInd m nd (fun a => ∀ b ∈ tagList m st nd a, chainEnd m st nd a = chainEnd m st nd b) ?_ ?_
  · intro a ha b hb
    rw [tagList_eq, if_neg (by omega)] at hb
    exact absurd hb (List.not_mem_nil b)
  · intro a ha ih b hb
    have hc := tagList_mem_cond m st nd a b hb
    rw [tagList_eq, if_pos hc] at hb
    rcases List.mem_cons.mp hb with h | h
    · rw [h]
    · rw [chainEnd_eq, if_pos hc]
      exact ih b h

theorem tagList_sub (m : Mem) (st nd : Nat) :
    ∀ a, ∀ b ∈ tagList m st nd a, tagList m st nd b ⊆ tagList m st nd a := by
  refine chainInd m nd (fun a => ∀ b ∈ tagList m st nd a, tagList m st nd b ⊆ tagList m st nd a) ?_ ?_
  · intro a ha b hb
    rw [tagList_eq, if_neg (by omega)] at hb
    exact absurd hb (List.not_mem_nil b)
  · intro a ha ih b hb
    have hc := tagList_mem_cond m st nd a b hb
    rw [tagList_eq, if_pos hc] at hb
    rcases List.mem_cons.mp hb with h | h
    · rw [h]
      exact fun x hx => hx
    · intro x hx
      rw [tagList_eq, if_pos hc]
      exact List.mem_cons_of_mem a (ih b h hx)

theorem tagNext_mem (m : Mem) (st nd a b : Nat) (hb : b ∈ tagList m st nd a)
    (hlt : tagNext m b < nd) : tagNext m b ∈ tagList m st nd a := by
  have hbb := tagList_mem_bounds m st nd a b hb
  have h1 : tagNext m b ∈ tagList m st nd b := by
    rw [tagList_eq, if_pos ⟨hbb.1, hbb.2.2⟩]
    refine List.mem_cons_of_mem b ?_
    exact tagList_self_mem m st nd _ (by unfold tagNext; omega) hlt
  exact tagList_sub m st nd a b hb h1

/-- Under exact tiling, no block runs past the arena end. -/
theorem tagNext_le_nd (m : Mem) (st nd a : Nat) (htile : chainEnd m st nd a = nd)
    (b : Nat) (hb : b ∈ tagList m st nd a) : tagNext m b ≤ nd := by
  have h1 := chainEnd_of_mem m st nd a b hb
  have hbb := tagList_mem_bounds m st nd a b hb
  have h2 : chainEnd m st nd b = chainEnd m st nd (tagNext m b) := by
    rw [chainEnd_eq, if_pos ⟨hbb.1, hbb.2.2⟩]
  have h3 := chainEnd_ge m st nd (tagNext m b)
  omega

/-- Blocks of the chain are ordered: an earlier block ends at or before a
later block's tag. -/
theorem tagList_ordered (m : Mem) (st nd : Nat) :
    ∀ a, ∀ b ∈ tagList m st nd a, ∀ c ∈ tagList m st nd a, b < c → tagNext m b ≤ c := by
  refine chainInd m nd
    (fun a => ∀ b ∈ tagList m st nd a, ∀ c ∈ tagList m st nd a, b < c → tagNext m b ≤ c) ?_ ?_
  · intro a ha b hb
    rw [tagList_eq, if_neg (by omega)] at hb
    exact absurd hb (List.not_mem_nil b)
  · intro a ha ih b hb c hc hbc
    have hcond := tagList_mem_cond m st nd a b hb
    rw [tagList_eq, if_pos hcond] at hb hc
    rcases List.mem_cons.mp hb with h | h
    · rcases List.mem_cons.mp hc with h2 | h2
      · omega
      · subst h
        exact (tagList_mem_bounds m st nd (tagNext m b) c h2).2.1
    · rcases List.mem_cons.mp hc with h2 | h2
      · have := (tagList_mem_bounds m st nd (tagNext m a) b h).2.1
        have : a < b := by
          have : a < tagNext m a := by unfold tagNext; omega
          omega
        omega
      · exact ih b h c h2 hbc

/-- The walk only reads memory at or above its cursor: agreeing memories
walk identically. -/
theorem tagList_congr (m m2 : Mem) (st nd : Nat) :
    ∀ a, (∀ x, a ≤ x → x < nd → m2 x = m x) →
      tagList m2 st nd a = tagList m st nd a ∧ chainEnd m2 st nd a = chainEnd m st nd a := by
  refine chainInd m nd (fun a => (∀ x, a ≤ x → x < nd → m2 x = m x) →
      tagList m2 st nd a = tagList m st nd a ∧ chainEnd m2 st nd a = chainEnd m st nd a) ?_ ?_
  · intro a ha hag
    have hc : ¬(st ≤ a ∧ a < nd) := by omega
    constructor
    · rw [tagList_eq m2 st nd a, tagList_eq m st nd a, if_neg hc, if_neg hc]
    · rw [chainEnd_eq m2 st nd a, chainEnd_eq m st nd a, if_neg hc, if_neg hc]
  · intro a ha ih hag
    by_cases hc : st ≤ a ∧ a < nd
    · have hma : m2 a = m a := hag a (Nat.le_refl a) ha
      have hnx : tagNext m2 a = tagNext m a := by unfold tagNext; rw [hma]
      have hih := ih (fun x hx1 hx2 => hag x (by unfold tagNext at hx1; omega) hx2)
      constructor
      · rw [tagList_eq m2 st nd a, tagList_eq m st nd a, if_pos hc, if_pos hc, hnx, hih.1]
      · rw [chainEnd_eq m2 st nd a, chainEnd_eq m st nd a, if_pos hc, if_pos hc, hnx, hih.2]
    · constructor
      · rw [tagList_eq m2 st nd a, tagList_eq m st nd a, if_neg hc, if_neg hc]
      · rw [chainEnd_eq m2 st nd a, chainEnd_eq m st nd a, if_neg hc, if_neg hc]

/-- Walking a memory changed only at or above a chain member `c`: the walk
reaches `c` unchanged, and everything decomposes at `c`. -/
theorem tagList_split (m m2 : Mem) (st nd c : Nat) :
    ∀ a, c ∈ tagList m st nd a → (∀ x, x < c → m2 x = m x) →
      (∀ b, b ∈ tagList m2 st nd a ↔
        (b ∈ tagList m st nd a ∧ b < c) ∨ b ∈ tagList m2 st nd c) ∧
      chainEnd m2 st nd a = chainEnd m2 st nd c := by
  refine chainInd m nd (fun a => c ∈ tagList m st nd a → (∀ x, x < c → m2 x = m x) →
      (∀ b, b ∈ tagList m2 st nd a ↔
        (b ∈ tagList m st nd a ∧ b < c) ∨ b ∈ tagList m2 st nd c) ∧
      chainEnd m2 st nd a = chainEnd m2 st nd c) ?_ ?_
  · intro a ha hc
    rw [tagList_eq, if_neg (by omega)] at hc
    exact absurd hc (List.not_mem_nil c)
  · intro a ha ih hcmem hag
    have hcond := tagList_mem_cond m st nd a c hcmem
    rw [tagList_eq, if_pos hcond] at hcmem
    rcases List.mem_cons.mp hcmem with h | h
    · rw [h]
      constructor
      · intro b
        constructor
        · intro hb; exact Or.inr hb
        · intro hb
          rcases hb with ⟨hb1, hb2⟩ | hb
          · have := (tagList_mem_bounds m st nd a b hb1).2.1
            omega
          · exact hb
      · rfl
    · have hac : a < c := by
        have h1 := (tagList_mem_bounds m st nd (tagNext m a) c h).2.1
        have : a < tagNext m a := by unfold tagNext; omega
        omega
      have hma : m2 a = m a := hag a hac
      have hnx : tagNext m2 a = tagNext m a := by unfold tagNext; rw [hma]
      have hih := ih h hag
      constructor
      · intro b
        rw [tagList_eq m2, if_pos hcond, hnx, tagList_eq m, if_pos hcond]
        constructor
        · intro hb
          rcases List.mem_cons.mp hb with hba | hbt
          · exact Or.inl ⟨by rw [hba]; exact List.mem_cons_self a _, by omega⟩
          · rcases (hih.1 b).mp hbt with ⟨hb1, hb2⟩ | hb3
            · exact Or.inl ⟨List.mem_cons_of_mem a hb1, hb2⟩
            · exact Or.inr hb3
        · intro hb
          rcases hb with ⟨hb1, hb2⟩ | hb3
          · rcases List.mem_cons.mp hb1 with hba | hbt
            · rw [hba]; exact List.mem_cons_self a _
            · exact List.mem_cons_of_mem a ((hih.1 b).mpr (Or.inl ⟨hbt, hb2⟩))
          · exact List.mem_cons_of_mem a ((hih.1 b).mpr (Or.inr hb3))
      · rw [chainEnd_eq m2, if_pos hcond, hnx]
        exact hih.2

/-- Writing at an address that is not a chain tag does not change the walk. -/
theorem tagList_write_nonmember (m : Mem) (st nd w v : Nat) :
    ∀ a, w ∉ tagList m st nd a →
      tagList (memSet m w v) st nd a = tagList m st nd a ∧
      chainEnd (memSet m w v) st nd a = chainEnd m st nd a := by
  refine chainInd m nd (fun a => w ∉ tagList m st nd a →
      tagList (memSet m w v) st nd a = tagList m st nd a ∧
      chainEnd (memSet m w v) st nd a = chainEnd m st nd a) ?_ ?_
  · intro a ha _
    have hc : ¬(st ≤ a ∧ a < nd) := by omega
    constructor
    · rw [tagList_eq (memSet m w v) st nd a, tagList_eq m st nd a, if_neg hc, if_neg hc]
    · rw [chainEnd_eq (memSet m w v) st nd a, chainEnd_eq m st nd a, if_neg hc, if_neg hc]
  · intro a ha ih hw
    by_cases hc : st ≤ a ∧ a < nd
    · have haw : a ≠ w := by
        intro h
        exact hw (h ▸ tagList_self_mem m st nd a hc.1 hc.2)
      have hma : memSet m w v a = m a := memSet_other m w v a haw
      have hnx : tagNext (memSet m w v) a = tagNext m a := by unfold tagNext; rw [hma]
      have hwt : w ∉ tagList m st nd (tagNext m a) := by
        intro h
        refine hw ?_
        rw [tagList_eq, if_pos hc]
        exact List.mem_cons_of_mem a h
      have hih := ih hwt
      constructor
      · rw [tagList_eq (memSet m w v) st nd a, tagList_eq m st nd a, if_pos hc, if_pos hc,
          hnx, hih.1]
      · rw [chainEnd_eq (memSet m w v) st nd a, chainEnd_eq m st nd a, if_pos hc, if_pos hc,
          hnx, hih.2]
    · constructor
      · rw [tagList_eq (memSet m w v) st nd a, tagList_eq m st nd a, if_neg hc, if_neg hc]
      · rw [chainEnd_eq (memSet m w v) st nd a, chainEnd_eq m st nd a, if_neg hc, if_neg hc]

/-- A write that does not change any word's size field leaves the walk
unchanged. -/
theorem tagList_size_preserving (m m2 : Mem) (st nd : Nat)
    (hsz : ∀ x, wsize (m2 x) = wsize (m x)) :
    ∀ a, tagList m2 st nd a = tagList m st nd a ∧ chainEnd m2 st nd a = chainEnd m st nd a := by
  refine chainInd m nd (fun a =>
      tagList m2 st nd a = tagList m st nd a ∧ chainEnd m2 st nd a = chainEnd m st nd a) ?_ ?_
  · intro a ha
    have hc : ¬(st ≤ a ∧ a < nd) := by omega
    constructor
    · rw [tagList_eq m2 st nd a, tagList_eq m st nd a, if_neg hc, if_neg hc]
    · rw [chainEnd_eq m2 st nd a, chainEnd_eq m st nd a, if_neg hc, if_neg hc]
  · intro a ha ih
    have hnx : tagNext m2 a = tagNext m a := by unfold tagNext; rw [hsz a]
    by_cases hc : st ≤ a ∧ a < nd
    · constructor
      · rw [tagList_eq m2 st nd a, tagList_eq m st nd a, if_pos hc, if_pos hc, hnx, ih.1]
      · rw [chainEnd_eq m2 st nd a, chainEnd_eq m st nd a, if_pos hc, if_pos hc, hnx, ih.2]
    · constructor
      · rw [tagList_eq m2 st nd a, tagList_eq m st nd a, if_neg hc, if_neg hc]
      · rw [chainEnd_eq m2 st nd a, chainEnd_eq m st nd a, if_neg hc, if_neg hc]

/-- With tag-aligned start and all sizes tag-aligned, every tag address is
tag-aligned. -/
theorem tagList_mem_mod4 (m : Mem) (st nd : Nat) :
    ∀ a, 4 ∣ a → (∀ x ∈ tagList m st nd a, 4 ∣ wsize (m x)) →
      ∀ b ∈ tagList m st nd a, 4 ∣ b := by
  refine chainInd m nd (fun a => 4 ∣ a → (∀ x ∈ tagList m st nd a, 4 ∣ wsize (m x)) →
      ∀ b ∈ tagList m st nd a, 4 ∣ b) ?_ ?_
  · intro a ha _ _ b hb
    rw [tagList_eq, if_neg (by omega)] at hb
    exact absurd hb (List.not_mem_nil b)
  · intro a ha ih h4 hsz b hb
    have hcond := tagList_mem_cond m st nd a b hb
    rw [tagList_eq, if_pos hcond] at hb
    rcases List.mem_cons.mp hb with h | h
    · rw [h]; exact h4
    · have hsa : 4 ∣ wsize (m a) := hsz a (tagList_self_mem m st nd a hcond.1 hcond.2)
      have h4n : 4 ∣ tagNext m a := by
        unfold tagNext
        omega
      refine ih h4n (fun x hx => hsz x ?_) b h
      · rw [tagList_eq, if_pos hcond]
        exact List.mem_cons_of_mem a hx

/-! ## Fuel irrelevance and unfolding for the three scan loops -/

theorem smallLoopAux_irrel (m : Mem) (st nd req : Nat) :
    ∀ f g best c, nd ≤ c + f → nd ≤ c + g →
      smallLoopAux m st nd req f best c = smallLoopAux m st nd req g best c := by
  intro f
  induction f with
  | zero =>
    intro g best c hf _
    cases g with
    | zero => rfl
    | succ g => simp only [smallLoopAux, show ¬(st ≤ c ∧ c < nd) by omega, if_false]
  | succ f ih =>
    intro g best c hf hg
    cases g with
    | zero => simp only [smallLoopAux, show ¬(st ≤ c ∧ c < nd) by omega, if_false]
    | succ g =>
      simp only [smallLoopAux]
      by_cases h1 : st ≤ c ∧ c < nd
      · rw [if_pos h1, if_pos h1]
        have hnx : nd ≤ tagNext m c + f ∧ nd ≤ tagNext m c + g := by
          unfold tagNext; omega
        by_cases h2 : m c % 2 = 0 ∧ req ≤ wsize (m c)
        · rw [if_pos h2, if_pos h2]
          by_cases h3 : wsize (m c) = req ∨ wsize (m c) = req + 4
          · rw [if_pos h3, if_pos h3]
          · rw [if_neg h3, if_neg h3]
            by_cases h4 : req < (match best with | none => 4294967295 | some t => wsize (m t))
            · rw [if_pos h4, if_pos h4]
              exact ih g (some c) (tagNext m c) hnx.1 hnx.2
            · rw [if_neg h4, if_neg h4]
              exact ih g best (tagNext m c) hnx.1 hnx.2
        · rw [if_neg h2, if_neg h2]
          exact ih g best (tagNext m c) hnx.1 hnx.2
      · rw [if_neg h1, if_neg h1]

theorem smallLoop_eq (m : Mem) (st nd req : Nat) (best : Option Nat) (c : Nat) :
    smallLoop m st nd req best c =
      if st ≤ c ∧ c < nd then
        if m c % 2 = 0 ∧ req ≤ wsize (m c) then
          if wsize (m c) = req ∨ wsize (m c) = req + 4 then SmallRes.exact c
          else if req < (match best with | none => 4294967295 | some t => wsize (m t)) then
            smallLoop m st nd req (some c) (tagNext m c)
          else smallLoop m st nd req best (tagNext m c)
        else smallLoop m st nd req best (tagNext m c)
      else SmallRes.finish best := by
  unfold smallLoop
  by_cases h : st ≤ c ∧ c < nd
  · obtain ⟨f, rfl⟩ : ∃ f, nd = f + 1 := ⟨nd - 1, by omega⟩
    have hstep : smallLoopAux m st (f + 1) req (f + 1) best c =
        if st ≤ c ∧ c < f + 1 then
          if m c % 2 = 0 ∧ req ≤ wsize (m c) then
            if wsize (m c) = req ∨ wsize (m c) = req + 4 then SmallRes.exact c
            else if req < (match best with | none => 4294967295 | some t => wsize (m t)) then
              smallLoopAux m st (f + 1) req f (some c) (tagNext m c)
            else smallLoopAux m st (f + 1) req f best (tagNext m c)
          else smallLoopAux m st (f + 1) req f best (tagNext m c)
        else SmallRes.finish best := rfl
    rw [hstep, if_pos h, if_pos h]
    have hx : f + 1 ≤ tagNext m c + f ∧ f + 1 ≤ tagNext m c + (f + 1) := by
      unfold tagNext; omega
    rw [smallLoopAux_irrel m st (f + 1) req f (f + 1) best (tagNext m c) hx.1 hx.2,
      smallLoopAux_irrel m st (f + 1) req f (f + 1) (some c) (tagNext m c) hx.1 hx.2]
  · rw [if_neg h]
    cases nd with
    | zero => rfl
    | succ f =>
      have hstep : smallLoopAux m st (f + 1) req (f + 1) best c =
          if st ≤ c ∧ c < f + 1 then
            if m c % 2 = 0 ∧ req ≤ wsize (m c) then
              if wsize (m c) = req ∨ wsize (m c) = req + 4 then SmallRes.exact c
              else if req < (match best with | none => 4294967295 | some t => wsize (m t)) then
                smallLoopAux m st (f + 1) req f (some c) (tagNext m c)
              else smallLoopAux m st (f + 1) req f best (tagNext m c)
            else smallLoopAux m st (f + 1) req f best (tagNext m c)
          else SmallRes.finish best := rfl
      rw [hstep, if_neg h]

theorem pagesLoopAux_irrel (m : Mem) (st nd pgs : Nat) :
    ∀ f g best c, nd ≤ c + f → nd ≤ c + g →
      pagesLoopAux m st nd pgs f best c = pagesLoopAux m st nd pgs g best c := by
  intro f
  induction f with
  | zero =>
    intro g best c hf _
    cases g with
    | zero => rfl
    | succ g => simp only [pagesLoopAux, show ¬(st ≤ c ∧ c < nd) by omega, if_false]
  | succ f ih =>
    intro g best c hf hg
    cases g with
    | zero => simp only [pagesLoopAux, show ¬(st ≤ c ∧ c < nd) by omega, if_false]
    | succ g =>
      simp only [pagesLoopAux]
      by_cases h1 : st ≤ c ∧ c < nd
      · rw [if_pos h1, if_pos h1]
        exact ih g _ (tagNext m c) (by unfold tagNext; omega) (by unfold tagNext; omega)
      · rw [if_neg h1, if_neg h1]

theorem pagesLoop_eq (m : Mem) (st nd pgs : Nat) (best : Option (Nat × Nat × Nat)) (c : Nat) :
    pagesLoop m st nd pgs best c =
      if st ≤ c ∧ c < nd then
        pagesLoop m st nd pgs
          (if m c % 2 = 0 then
            match getPageAlignedPart m c pgs with
            | some (lo, hi) => some (c, lo, hi)
            | none => best
          else best) (tagNext m c)
      else best := by
  unfold pagesLoop
  by_cases h : st ≤ c ∧ c < nd
  · obtain ⟨f, rfl⟩ : ∃ f, nd = f + 1 := ⟨nd - 1, by omega⟩
    have hstep : pagesLoopAux m st (f + 1) pgs (f + 1) best c =
        if st ≤ c ∧ c < f + 1 then
          pagesLoopAux m st (f + 1) pgs f
            (if m c % 2 = 0 then
              match getPageAlignedPart m c pgs with
              | some (lo, hi) => some (c, lo, hi)
              | none => best
            else best) (tagNext m c)
        else best := rfl
    rw [hstep, if_pos h, if_pos h]
    exact pagesLoopAux_irrel m st (f + 1) pgs f (f + 1) _ (tagNext m c)
      (by unfold tagNext; omega) (by unfold tagNext; omega)
  · rw [if_neg h]
    cases nd with
    | zero => rfl
    | succ f =>
      have hstep : pagesLoopAux m st (f + 1) pgs (f + 1) best c =
          if st ≤ c ∧ c < f + 1 then
            pagesLoopAux m st (f + 1) pgs f
              (if m c % 2 = 0 then
                match getPageAlignedPart m c pgs with
                | some (lo, hi) => some (c, lo, hi)
                | none => best
              else best) (tagNext m c)
          else best := rfl
      rw [hstep, if_neg h]

theorem recalcLoopAux_irrel (st nd : Nat) :
    ∀ f g m largest prev, nd ≤ prev + f → nd ≤ prev + g →
      recalcLoopAux st nd f m largest prev = recalcLoopAux st nd g m largest prev := by
  intro f
  induction f with
  | zero =>
    intro g m largest prev hf _
    cases g with
    | zero => rfl
    | succ g =>
      have hlt : ¬(st ≤ tagNext m prev ∧ tagNext m prev < nd) := by unfold tagNext; omega
      simp only [recalcLoopAux, hlt, if_false]
  | succ f ih =>
    intro g m largest prev hf hg
    cases g with
    | zero =>
      have hlt : ¬(st ≤ tagNext m prev ∧ tagNext m prev < nd) := by unfold tagNext; omega
      simp only [recalcLoopAux, hlt, if_false]
    | succ g =>
      simp only [recalcLoopAux]
      by_cases h1 : st ≤ tagNext m prev ∧ tagNext m prev < nd
      · rw [if_pos h1, if_pos h1]
        have hx : nd ≤ tagNext m prev + f ∧ nd ≤ tagNext m prev + g := by
          unfold tagNext; omega
        by_cases h2 : m prev % 2 = 0 ∧ m (tagNext m prev) % 2 = 0
        · rw [if_pos h2, if_pos h2]
          exact ih g _ _ (tagNext m prev) hx.1 hx.2
        · rw [if_neg h2, if_neg h2]
          by_cases h3 : m (tagNext m prev) % 2 = 0
          · rw [if_pos h3, if_pos h3]
            exact ih g _ _ (tagNext m prev) hx.1 hx.2
          · rw [if_neg h3, if_neg h3]
            exact ih g _ _ (tagNext m prev) hx.1 hx.2
      · rw [if_neg h1, if_neg h1]

theorem recalcLoop_eq (st nd : Nat) (m : Mem) (largest prev : Nat) :
    recalcLoop st nd m largest prev =
      if st ≤ tagNext m prev ∧ tagNext m prev < nd then
        if m prev % 2 = 0 ∧ m (tagNext m prev) % 2 = 0 then
          recalcLoop st nd
            (memSet m prev (setSize (m prev) (wsize (m prev) + wsize (m (tagNext m prev)) + 4)))
            (max largest (pgSize (wsize
              (memSet m prev (setSize (m prev) (wsize (m prev) + wsize (m (tagNext m prev)) + 4))
                prev)) - 1))
            (tagNext m prev)
        else if m (tagNext m prev) % 2 = 0 then
          recalcLoop st nd m (max largest (pgSize (wsize (m (tagNext m prev))) - 1))
            (tagNext m prev)
        else recalcLoop st nd m largest (tagNext m prev)
      else (m, largest) := by
  unfold recalcLoop
  by_cases h : st ≤ tagNext m prev ∧ tagNext m prev < nd
  · obtain ⟨f, rfl⟩ : ∃ f, nd = f + 1 := ⟨nd - 1, by omega⟩
    have hstep : recalcLoopAux st (f + 1) (f + 1) m largest prev =
        if st ≤ tagNext m prev ∧ tagNext m prev < f + 1 then
          if m prev % 2 = 0 ∧ m (tagNext m prev) % 2 = 0 then
            recalcLoopAux st (f + 1) f
              (memSet m prev (setSize (m prev) (wsize (m prev) + wsize (m (tagNext m prev)) + 4)))
              (max largest (pgSize (wsize
                (memSet m prev
                  (setSize (m prev) (wsize (m prev) + wsize (m (tagNext m prev)) + 4)) prev)) - 1))
              (tagNext m prev)
          else if m (tagNext m prev) % 2 = 0 then
            recalcLoopAux st (f + 1) f m (max largest (pgSize (wsize (m (tagNext m prev))) - 1))
              (tagNext m prev)
          else recalcLoopAux st (f + 1) f m largest (tagNext m prev)
        else (m, largest) := rfl
    rw [hstep, if_pos h, if_pos h]
    have hx : f + 1 ≤ tagNext m prev + f ∧ f + 1 ≤ tagNext m prev + (f + 1) := by
      unfold tagNext; omega
    rw [recalcLoopAux_irrel st (f + 1) f (f + 1) _ _ (tagNext m prev) hx.1 hx.2,
      recalcLoopAux_irrel st (f + 1) f (f + 1) m (max largest (pgSize (wsize (m (tagNext m prev))) - 1)) (tagNext m prev) hx.1 hx.2,
      recalcLoopAux_irrel st (f + 1) f (f + 1) m largest (tagNext m prev) hx.1 hx.2]
  · rw [if_neg h]
    cases nd with
    | zero =>
      have : ¬(st ≤ tagNext m prev ∧ tagNext m prev < 0) := by omega
      simp only [recalcLoopAux, this, if_false]
    | succ f =>
      have hstep : recalcLoopAux st (f + 1) (f + 1) m largest prev =
          if st ≤ tagNext m prev ∧ tagNext m prev < f + 1 then
            if m prev % 2 = 0 ∧ m (tagNext m prev) % 2 = 0 then
              recalcLoopAux st (f + 1) f
                (memSet m prev
                  (setSize (m prev) (wsize (m prev) + wsize (m (tagNext m prev)) + 4)))
                (max largest (pgSize (wsize
                  (memSet m prev
                    (setSize (m prev) (wsize (m prev) + wsize (m (tagNext m prev)) + 4))
                      prev)) - 1))
                (tagNext m prev)
            else if m (tagNext m prev) % 2 = 0 then
              recalcLoopAux st (f + 1) f m (max largest (pgSize (wsize (m (tagNext m prev))) - 1))
                (tagNext m prev)
            else recalcLoopAux st (f + 1) f m largest (tagNext m prev)
          else (m, largest) := rfl
      rw [hstep, if_neg h]

/-! ## Facts about the page-aligned carve -/

theorem gpap_none_iff (m : Mem) (a pgs : Nat) :
    getPageAlignedPart m a pgs = none ↔
      wsize (m a) < 4096 * pgs + (4096 - (a + 4) % 4096) % 4096 := by
  unfold getPageAlignedPart
  by_cases h : wsize (m a) < 4096 * pgs + (4096 - (a + 4) % 4096) % 4096
  · simp only [h, if_true, iff_true]
  · simp only [h, if_false, iff_false]
    intro hc
    exact Option.noConfusion hc

/-- Geometry of a successful carve: the carve end is page-aligned, the
carved span is exactly the requested bytes plus its tag, it lies inside the
block, and the carve tag sits at or tag-aligned above the block's tag. -/
theorem gpap_facts (m : Mem) (a pgs lo hi : Nat) (h4 : 4 ∣ a) (hp : 1 ≤ pgs)
    (h : getPageAlignedPart m a pgs = some (lo, hi)) :
    hi % 4096 = 0 ∧ hi = lo + 4 + 4096 * pgs ∧ hi ≤ tagNext m a ∧
    a ≤ lo ∧ (lo = a ∨ a + 4 ≤ lo) ∧ 4096 * (pgs + 1) ≤ hi ∧ (lo + 4) % 4096 = 0 ∧
    hi = tagNext m a - tagNext m a % 4096 := by
  unfold getPageAlignedPart at h
  by_cases hg : wsize (m a) < 4096 * pgs + (4096 - (a + 4) % 4096) % 4096
  · rw [if_pos hg] at h
    exact Option.noConfusion h
  · rw [if_neg hg] at h
    have hpair := Option.some.inj h
    have hlo : lo = ((tagNext m a - tagNext m a % 4096) / 4096 - pgs) * 4096 - 4 :=
      congrArg Prod.fst hpair.symm
    have hhi : hi = tagNext m a - tagNext m a % 4096 :=
      congrArg Prod.snd hpair.symm
    have hx : tagNext m a = a + 4 + wsize (m a) := rfl
    -- the aligned point `a + 4 + pre` is a lower bound for the carve end
    have hy : (a + 4 + (4096 - (a + 4) % 4096) % 4096) % 4096 = 0 := by omega
    have hyx : a + 4 + (4096 - (a + 4) % 4096) % 4096 + 4096 * pgs ≤ tagNext m a := by omega
    have he0 : hi % 4096 = 0 := by omega
    have hey : a + 4 + (4096 - (a + 4) % 4096) % 4096 + 4096 * pgs ≤ hi := by omega
    have hbig : 4096 * (pgs + 1) ≤ hi := by omega
    have hdiv : (tagNext m a - tagNext m a % 4096) / 4096 * 4096
        = tagNext m a - tagNext m a % 4096 := by omega
    have hlo2 : lo + 4 + 4096 * pgs = hi := by
      rw [hlo, hhi]
      omega
    have hpre4 : 4 ∣ (4096 - (a + 4) % 4096) % 4096 := by omega
    refine ⟨he0, hlo2.symm, by omega, by omega, ?_, hbig, by omega, hhi⟩
    · -- lo = a, or lo is at least one tag above a
      by_cases hz : (4096 - (a + 4) % 4096) % 4096 = 0
      · have hla : (a + 4) % 4096 = 0 := by omega
        have hlal : (lo + 4) % 4096 = 0 := by omega
        omega
      · omega

/-! ## Characterization of the small-object scan -/

/-- A free block large enough for the request (the scan's outer guard). -/
def isQual (m : Mem) (req x : Nat) : Prop := m x % 2 = 0 ∧ req ≤ wsize (m x)

/-- A free block hitting the exact-fit shortcut. -/
def isExactFit (m : Mem) (req x : Nat) : Prop :=
  m x % 2 = 0 ∧ (wsize (m x) = req ∨ wsize (m x) = req + 4)

/-- Loop invariant for the recorded candidate. -/
def BestOk (m : Mem) (req : Nat) : Option Nat → Prop
  | none => True
  | some t => m t % 2 = 0 ∧ req < wsize (m t) ∧ ¬(wsize (m t) = req ∨ wsize (m t) = req + 4)

theorem isExactFit_isQual (m : Mem) (req x : Nat) (h : isExactFit m req x) : isQual m req x := by
  unfold isExactFit at h
  unfold isQual
  omega

theorem bestOk_lt (m : Mem) (req : Nat) (best : Option Nat) (hmax : req < 4294967295) :
    BestOk m req best → req < (match best with | none => 4294967295 | some t => wsize (m t)) := by
  cases best with
  | none => intro _; exact hmax
  | some b => intro hB; exact hB.2.1

/-- Full characterization of the `allocate_small` scan: a `none` result
means no qualifying block exists; an exact result is the first exact fit;
a candidate result is the last qualifying block, with no exact fit
anywhere. -/
theorem smallLoop_spec (m : Mem) (st nd req : Nat) (hreq : req % 2 = 0)
    (hmax : req < 4294967295) :
    ∀ c, ∀ best, BestOk m req best →
      (smallLoop m st nd req best c = SmallRes.finish none →
        best = none ∧ ∀ x ∈ tagList m st nd c, ¬isQual m req x)
      ∧ (∀ t, smallLoop m st nd req best c = SmallRes.exact t →
          t ∈ tagList m st nd c ∧ isExactFit m req t ∧
          ∀ x ∈ tagList m st nd c, x < t → ¬isExactFit m req x)
      ∧ (∀ t, smallLoop m st nd req best c = SmallRes.finish (some t) →
          (t ∈ tagList m st nd c ∨ best = some t) ∧
          m t % 2 = 0 ∧ req < wsize (m t) ∧ ¬(wsize (m t) = req ∨ wsize (m t) = req + 4) ∧
          (∀ x ∈ tagList m st nd c, ¬isExactFit m req x) ∧
          (∀ x ∈ tagList m st nd c, t < x → ¬isQual m req x)) := by
  refine chainInd m nd (fun c => ∀ best, BestOk m req best →
      (smallLoop m st nd req best c = SmallRes.finish none →
        best = none ∧ ∀ x ∈ tagList m st nd c, ¬isQual m req x)
      ∧ (∀ t, smallLoop m st nd req best c = SmallRes.exact t →
          t ∈ tagList m st nd c ∧ isExactFit m req t ∧
          ∀ x ∈ tagList m st nd c, x < t → ¬isExactFit m req x)
      ∧ (∀ t, smallLoop m st nd req best c = SmallRes.finish (some t) →
          (t ∈ tagList m st nd c ∨ best = some t) ∧
          m t % 2 = 0 ∧ req < wsize (m t) ∧ ¬(wsize (m t) = req ∨ wsize (m t) = req + 4) ∧
          (∀ x ∈ tagList m st nd c, ¬isExactFit m req x) ∧
          (∀ x ∈ tagList m st nd c, t < x → ¬isQual m req x))) ?_ ?_
  · intro c hc best hB
    have hcond : ¬(st ≤ c ∧ c < nd) := by omega
    have hres : smallLoop m st nd req best c = SmallRes.finish best := by
      rw [smallLoop_eq, if_neg hcond]
    have hnil : tagList m st nd c = [] := by rw [tagList_eq, if_neg hcond]
    refine ⟨?_, ?_, ?_⟩
    · intro heq
      rw [hres] at heq
      injection heq with h2
      exact ⟨h2, by rw [hnil]; intro x hx; exact absurd hx (List.not_mem_nil x)⟩
    · intro t heq
      rw [hres] at heq
      exact SmallRes.noConfusion heq
    · intro t heq
      rw [hres] at heq
      injection heq with h2
      subst h2
      refine ⟨Or.inr rfl, hB.1, hB.2.1, hB.2.2, ?_, ?_⟩
      · rw [hnil]; intro x hx; exact absurd hx (List.not_mem_nil x)
      · rw [hnil]; intro x hx; exact absurd hx (List.not_mem_nil x)
  · intro c hlt ih best hB
    by_cases hcond : st ≤ c ∧ c < nd
    case neg =>
      have hres : smallLoop m st nd req best c = SmallRes.finish best := by
        rw [smallLoop_eq, if_neg hcond]
      have hnil : tagList m st nd c = [] := by rw [tagList_eq, if_neg hcond]
      refine ⟨?_, ?_, ?_⟩
      · intro heq
        rw [hres] at heq
        injection heq with h2
        exact ⟨h2, by rw [hnil]; intro x hx; exact absurd hx (List.not_mem_nil x)⟩
      · intro t heq
        rw [hres] at heq
        exact SmallRes.noConfusion heq
      · intro t heq
        rw [hres] at heq
        injection heq with h2
        subst h2
        refine ⟨Or.inr rfl, hB.1, hB.2.1, hB.2.2, ?_, ?_⟩
        · rw [hnil]; intro x hx; exact absurd hx (List.not_mem_nil x)
        · rw [hnil]; intro x hx; exact absurd hx (List.not_mem_nil x)
    case pos =>
      have hlist : tagList m st nd c = c :: tagList m st nd (tagNext m c) := by
        rw [tagList_eq, if_pos hcond]
      have htail_gt : ∀ x ∈ tagList m st nd (tagNext m c), c < x := by
        intro x hx
        have := (tagList_mem_bounds m st nd (tagNext m c) x hx).2.1
        unfold tagNext at this
        omega
      by_cases hq : m c % 2 = 0 ∧ req ≤ wsize (m c)
      · by_cases hex : wsize (m c) = req ∨ wsize (m c) = req + 4
        · -- exact-fit shortcut fires at c
          have hres : smallLoop m st nd req best c = SmallRes.exact c := by
            rw [smallLoop_eq, if_pos hcond, if_pos hq, if_pos hex]
          refine ⟨?_, ?_, ?_⟩
          · intro heq
            rw [hres] at heq
            exact SmallRes.noConfusion heq
          · intro t heq
            rw [hres] at heq
            injection heq with h2
            subst h2
            refine ⟨by rw [hlist]; exact List.mem_cons_self c _, ⟨hq.1, hex⟩, ?_⟩
            intro x hx hxc
            rw [hlist] at hx
            rcases List.mem_cons.mp hx with h | h
            · omega
            · have := htail_gt x h
              omega
          · intro t heq
            rw [hres] at heq
            exact SmallRes.noConfusion heq
        · -- c is recorded as the new candidate
          have hcnd := bestOk_lt m req best hmax hB
          have hres : smallLoop m st nd req best c
              = smallLoop m st nd req (some c) (tagNext m c) := by
            rw [smallLoop_eq, if_pos hcond, if_pos hq, if_neg hex, if_pos hcnd]
          have hBc : BestOk m req (some c) := by
            refine ⟨hq.1, ?_, hex⟩
            have h2 := wsize_even (m c)
            omega
          have hih := ih (some c) hBc
          refine ⟨?_, ?_, ?_⟩
          · intro heq
            rw [hres] at heq
            have := (hih.1 heq).1
            exact Option.noConfusion this
          · intro t heq
            rw [hres] at heq
            obtain ⟨hmem, hfit, hfirst⟩ := hih.2.1 t heq
            refine ⟨by rw [hlist]; exact List.mem_cons_of_mem c hmem, hfit, ?_⟩
            intro x hx hxt
            rw [hlist] at hx
            rcases List.mem_cons.mp hx with h | h
            · subst h; exact fun he => hex he.2
            · exact hfirst x h hxt
          · intro t heq
            rw [hres] at heq
            obtain ⟨hmem, hfree, hgt, hnex, hnoex, hlast⟩ := hih.2.2 t heq
            have htmem : t ∈ tagList m st nd c := by
              rw [hlist]
              rcases hmem with h | h
              · exact List.mem_cons_of_mem c h
              · injection h with h2
                subst h2
                exact List.mem_cons_self c _
            refine ⟨Or.inl htmem, hfree, hgt, hnex, ?_, ?_⟩
            · intro x hx
              rw [hlist] at hx
              rcases List.mem_cons.mp hx with h | h
              · subst h; exact fun he => hex he.2
              · exact hnoex x h
            · intro x hx hxt
              rw [hlist] at hx
              rcases List.mem_cons.mp hx with h | h
              · -- x = c and t < c is impossible: t is c or lies beyond c
                subst h
                rcases hmem with hm | hm
                · have := htail_gt t hm
                  omega
                · injection hm with h2
                  omega
              · exact hlast x h hxt
      · -- c does not qualify: the scan just advances
        have hres : smallLoop m st nd req best c
            = smallLoop m st nd req best (tagNext m c) := by
          rw [smallLoop_eq, if_pos hcond, if_neg hq]
        have hih := ih best hB
        refine ⟨?_, ?_, ?_⟩
        · intro heq
          rw [hres] at heq
          obtain ⟨h1, h2⟩ := hih.1 heq
          refine ⟨h1, ?_⟩
          intro x hx
          rw [hlist] at hx
          rcases List.mem_cons.mp hx with h | h
          · subst h; exact hq
          · exact h2 x h
        · intro t heq
          rw [hres] at heq
          obtain ⟨hmem, hfit, hfirst⟩ := hih.2.1 t heq
          refine ⟨by rw [hlist]; exact List.mem_cons_of_mem c hmem, hfit, ?_⟩
          intro x hx hxt
          rw [hlist] at hx
          rcases List.mem_cons.mp hx with h | h
          · subst h
            exact fun he => hq (isExactFit_isQual m req x he)
          · exact hfirst x h hxt
        · intro t heq
          rw [hres] at heq
          obtain ⟨hmem, hfree, hgt, hnex, hnoex, hlast⟩ := hih.2.2 t heq
          refine ⟨?_, hfree, hgt, hnex, ?_, ?_⟩
          · rcases hmem with h | h
            · exact Or.inl (by rw [hlist]; exact List.mem_cons_of_mem c h)
            · exact Or.inr h
          · intro x hx
            rw [hlist] at hx
            rcases List.mem_cons.mp hx with h | h
            · subst h
              exact fun he => hq (isExactFit_isQual m req x he)
            · exact hnoex x h
          · intro x hx hxt
            rw [hlist] at hx
            rcases List.mem_cons.mp hx with h | h
            · subst h; exact hq
            · exact hlast x h hxt

/-! ## Helper lemmas for chain surgery -/

theorem chainEnd_stop (m : Mem) (st nd a : Nat) (h : ¬(st ≤ a ∧ a < nd)) :
    chainEnd m st nd a = a := by
  rw [chainEnd_eq, if_neg h]

theorem chainEnd_from_next (m : Mem) (st nd a0 b : Nat)
    (htile : chainEnd m st nd a0 = nd) (hmem : b ∈ tagList m st nd a0) :
    chainEnd m st nd (tagNext m b) = nd := by
  have h1 := chainEnd_of_mem m st nd a0 b hmem
  have hb := tagList_mem_bounds m st nd a0 b hmem
  rw [chainEnd_eq m st nd b, if_pos ⟨hb.1, hb.2.2⟩] at h1
  omega

theorem tagList_next_sub (m : Mem) (st nd a0 b : Nat) (hmem : b ∈ tagList m st nd a0) :
    tagList m st nd (tagNext m b) ⊆ tagList m st nd a0 := by
  intro x hx
  have hb := tagList_mem_bounds m st nd a0 b hmem
  have hxb : x ∈ tagList m st nd b := by
    rw [tagList_eq, if_pos ⟨hb.1, hb.2.2⟩]
    exact List.mem_cons_of_mem b hx
  exact tagList_sub m st nd a0 b hmem hxb

/-- Any size-preserving rewrite of the tag memory preserves the invariant. -/
theorem Inv_size_preserving (s : Alloc) (m2 : Mem) (hI : Inv s)
    (hsz : ∀ x, wsize (m2 x) = wsize (s.mem x)) : Inv { s with mem := m2 } := by
  obtain ⟨hbuf, hpg, htile, hdiv⟩ := hI
  have h := tagList_size_preserving s.mem m2 s.buf (arenaEnd s) hsz s.buf
  refine ⟨hbuf, hpg, ?_, ?_⟩
  · show chainEnd m2 s.buf (arenaEnd s) s.buf = arenaEnd s
    rw [h.2]
    exact htile
  · intro b hb
    have hb2 : b ∈ tagsOf s := by
      unfold tagsOf at hb ⊢
      rw [← h.1]
      exact hb
    rw [hsz b]
    exact hdiv b hb2

/-- `allocate_small` preserves the arena invariant. -/
theorem allocateSmall_inv (s : Alloc) (req : Nat) (hI : Inv s) (h4 : 4 ∣ req)
    (hmax : req < 4294967295) : Inv (allocateSmall s req).2 := by
  obtain ⟨hbuf, hpg, htile, hdiv⟩ := hI
  rcases hres : smallLoop s.mem s.buf (arenaEnd s) req none s.buf with t | best
  · -- exact fit: a single bit flip, size preserved everywhere
    have heq : (allocateSmall s req).2
        = { s with mem := memSet s.mem t (setAllocated (s.mem t)) } := by
      simp only [allocateSmall, hres]
    rw [heq]
    refine Inv_size_preserving s _ ⟨hbuf, hpg, htile, hdiv⟩ ?_
    intro x
    by_cases hx : x = t
    · subst hx
      rw [memSet_same]
      exact wsize_setAllocated _
    · rw [memSet_other _ _ _ _ hx]
  · rcases best with _ | t
    · have heq : (allocateSmall s req).2 = s := by
        simp only [allocateSmall, hres]
      rw [heq]
      exact ⟨hbuf, hpg, htile, hdiv⟩
    · -- split the chosen candidate
      have hreq2 : req % 2 = 0 := by omega
      have hspec := (smallLoop_spec s.mem s.buf (arenaEnd s) req hreq2 hmax s.buf none
        trivial).2.2 t hres
      obtain ⟨hmem0, hfree, hgt, hnx, _, _⟩ := hspec
      have hmem : t ∈ tagList s.mem s.buf (arenaEnd s) s.buf := by
        rcases hmem0 with h | h
        · exact h
        · exact Option.noConfusion h
      have hdivt : 4 ∣ wsize (s.mem t) := hdiv t hmem
      have hold : req + 8 ≤ wsize (s.mem t) := by omega
      have hbnd := tagList_mem_bounds s.mem s.buf (arenaEnd s) s.buf t hmem
      have hNle : tagNext s.mem t ≤ arenaEnd s :=
        tagNext_le_nd s.mem s.buf (arenaEnd s) s.buf htile t hmem
      have hNval : tagNext s.mem t = t + 4 + wsize (s.mem t) := rfl
      have hw1 : wsize (setAllocated (setSize (s.mem t) req)) = req := by
        rw [wsize_setAllocated, wsize_setSize _ _ hreq2]
      have hnt : tagNext (memSet s.mem t (setAllocated (setSize (s.mem t) req))) t
          = t + 4 + req := by
        unfold tagNext
        rw [memSet_same, hw1]
      have hcond2 : s.buf ≤ tagNext (memSet s.mem t (setAllocated (setSize (s.mem t) req))) t
          ∧ tagNext (memSet s.mem t (setAllocated (setSize (s.mem t) req))) t < arenaEnd s := by
        rw [hnt]
        omega
      have heq : (allocateSmall s req).2
          = { s with mem := smallSplit s.mem s.buf (arenaEnd s) t req } := by
        simp only [allocateSmall, hres]
      have hsp : smallSplit s.mem s.buf (arenaEnd s) t req
          = memSet (memSet s.mem t (setAllocated (setSize (s.mem t) req)))
              (t + 4 + req) (wsize (s.mem t) - 4 - req) := by
        unfold smallSplit
        rw [if_pos hcond2, hnt]
      rw [heq, hsp]
      set m2f := memSet (memSet s.mem t (setAllocated (setSize (s.mem t) req)))
        (t + 4 + req) (wsize (s.mem t) - 4 - req) with hm2f
      -- pointwise values of the new memory
      have hv_t : m2f t = setAllocated (setSize (s.mem t) req) := by
        rw [hm2f, memSet_other _ _ _ _ (by omega), memSet_same]
      have hv_N : m2f (t + 4 + req) = wsize (s.mem t) - 4 - req := by
        rw [hm2f, memSet_same]
      have hlow : ∀ x, x < t → m2f x = s.mem x := by
        intro x hx
        rw [hm2f, memSet_other _ _ _ _ (by omega), memSet_other _ _ _ _ (by omega)]
      have hhi : ∀ x, t + 4 + wsize (s.mem t) ≤ x → x < arenaEnd s → m2f x = s.mem x := by
        intro x hx _
        rw [hm2f, memSet_other _ _ _ _ (by omega), memSet_other _ _ _ _ (by omega)]
      have hsplit := tagList_split s.mem m2f s.buf (arenaEnd s) t s.buf hmem hlow
      have hcongr := tagList_congr s.mem m2f s.buf (arenaEnd s) (t + 4 + wsize (s.mem t)) hhi
      have hrem_even : (wsize (s.mem t) - 4 - req) % 2 = 0 := by omega
      -- one step from t
      have hnewnext_t : tagNext m2f t = t + 4 + req := by
        unfold tagNext
        rw [hv_t, hw1]
      have hnewnext_N : tagNext m2f (t + 4 + req) = t + 4 + wsize (s.mem t) := by
        unfold tagNext
        rw [hv_N, wsize_of_even _ hrem_even]
        omega
      have hchain : chainEnd m2f s.buf (arenaEnd s) s.buf = arenaEnd s := by
        rw [hsplit.2, chainEnd_eq, if_pos ⟨hbnd.1, hbnd.2.2⟩, hnewnext_t,
          chainEnd_eq, if_pos (by constructor <;> omega), hnewnext_N, hcongr.2]
        rw [← hNval]
        exact chainEnd_from_next s.mem s.buf (arenaEnd s) s.buf t htile hmem
      -- tag list of the new memory from t
      have hlist_t : tagList m2f s.buf (arenaEnd s) t
          = t :: (t + 4 + req) :: tagList s.mem s.buf (arenaEnd s) (t + 4 + wsize (s.mem t)) := by
        rw [tagList_eq, if_pos ⟨hbnd.1, hbnd.2.2⟩, hnewnext_t,
          tagList_eq, if_pos (by constructor <;> omega), hnewnext_N, hcongr.1]
      refine ⟨hbuf, hpg, hchain, ?_⟩
      intro b hb
      show 4 ∣ wsize (m2f b)
      have hbm : b ∈ tagList m2f s.buf (arenaEnd s) s.buf := hb
      have hb2 := (hsplit.1 b).mp hbm
      rcases hb2 with ⟨hbo, hblt⟩ | hbn
      · rw [hlow b hblt]
        exact hdiv b hbo
      · rw [hlist_t] at hbn
        rcases List.mem_cons.mp hbn with h | h
        · subst h
          rw [hv_t, wsize_setAllocated, wsize_setSize _ _ hreq2]
          exact h4
        · rcases List.mem_cons.mp h with h2 | h2
          · subst h2
            rw [hv_N, wsize_of_even _ hrem_even]
            omega
          · have hbb := tagList_mem_bounds s.mem s.buf (arenaEnd s) _ b h2
            rw [hhi b hbb.2.1 hbb.2.2]
            refine hdiv b ?_
            have hsub := tagList_next_sub s.mem s.buf (arenaEnd s) s.buf t hmem
            rw [hNval] at hsub
            exact hsub h2

/-- Characterization of the `allocate_pages` scan: a successful result is
the initial candidate or the last free block whose carve succeeds. -/
theorem pagesLoop_spec (m : Mem) (st nd pgs : Nat) :
    ∀ c, ∀ best t lo hi, pagesLoop m st nd pgs best c = some (t, lo, hi) →
      best = some (t, lo, hi) ∨
      (t ∈ tagList m st nd c ∧ m t % 2 = 0 ∧ getPageAlignedPart m t pgs = some (lo, hi)) := by
  refine chainInd m nd (fun c => ∀ best t lo hi, pagesLoop m st nd pgs best c = some (t, lo, hi) →
      best = some (t, lo, hi) ∨
      (t ∈ tagList m st nd c ∧ m t % 2 = 0 ∧ getPageAlignedPart m t pgs = some (lo, hi))) ?_ ?_
  · intro c hc best t lo hi heq
    rw [pagesLoop_eq, if_neg (by omega)] at heq
    exact Or.inl heq
  · intro c hlt ih best t lo hi heq
    by_cases hcond : st ≤ c ∧ c < nd
    · rw [pagesLoop_eq, if_pos hcond] at heq
      rcases ih _ t lo hi heq with h | h
      · by_cases hfree : m c % 2 = 0
        · rw [if_pos hfree] at h
          cases hg : getPageAlignedPart m c pgs with
          | some p =>
            obtain ⟨l, h2⟩ := p
            rw [hg] at h
            have h3 : some (c, l, h2) = some (t, lo, hi) := h
            have h4 := Option.some.inj h3
            right
            refine ⟨?_, ?_, ?_⟩
            · rw [show t = c from (congrArg (fun q => q.1) h4).symm]
              exact tagList_self_mem m st nd c hcond.1 hcond.2
            · rw [show t = c from (congrArg (fun q => q.1) h4).symm]
              exact hfree
            · rw [show t = c from (congrArg (fun q => q.1) h4).symm, hg,
                show l = lo from congrArg (fun q => q.2.1) h4,
                show h2 = hi from congrArg (fun q => q.2.2) h4]
          | none =>
            rw [hg] at h
            exact Or.inl h
        · rw [if_neg hfree] at h
          exact Or.inl h
      · right
        refine ⟨?_, h.2.1, h.2.2⟩
        rw [tagList_eq, if_pos hcond]
        exact List.mem_cons_of_mem c h.1
    · rw [pagesLoop_eq, if_neg hcond] at heq
      exact Or.inl heq

/-- Rebuilding the invariant after surgery on the block at `t`: if the new
memory agrees below `t`, walks from `t` to the arena end, and all its tags
from `t` have tag-aligned sizes, the invariant holds again. -/
theorem Inv_rebuild (s : Alloc) (m2 : Mem) (t : Nat) (hI : Inv s)
    (hmem : t ∈ tagList s.mem s.buf (arenaEnd s) s.buf)
    (hlow : ∀ x, x < t → m2 x = s.mem x)
    (hchainT : chainEnd m2 s.buf (arenaEnd s) t = arenaEnd s)
    (hdivT : ∀ b ∈ tagList m2 s.buf (arenaEnd s) t, 4 ∣ wsize (m2 b)) :
    Inv { s with mem := m2 } := by
  obtain ⟨hbuf, hpg, htile, hdiv⟩ := hI
  have hsplit := tagList_split s.mem m2 s.buf (arenaEnd s) t s.buf hmem hlow
  refine ⟨hbuf, hpg, ?_, ?_⟩
  · show chainEnd m2 s.buf (arenaEnd s) s.buf = arenaEnd s
    rw [hsplit.2]
    exact hchainT
  · intro b hb
    show 4 ∣ wsize (m2 b)
    have hbm : b ∈ tagList m2 s.buf (arenaEnd s) s.buf := hb
    rcases (hsplit.1 b).mp hbm with ⟨hbo, hblt⟩ | hbn
    · rw [hlow b hblt]
      exact hdiv b hbo
    · exact hdivT b hbn

theorem setFree_setSize (w x : Nat) (hx : x % 2 = 0) : setFree (setSize w x) = x := by
  unfold setFree
  rw [wsize_setSize _ _ hx]

theorem wsize_allocSize (w x : Nat) (hx : x % 2 = 0) : wsize (setAllocated (setSize w x)) = x := by
  rw [wsize_setAllocated, wsize_setSize _ _ hx]

/-- `allocate_pages` preserves the arena invariant. -/
theorem allocatePages_inv (s : Alloc) (pgs : Nat) (hI : Inv s) (hp : 1 ≤ pgs) :
    Inv (allocatePages s pgs).2 := by
  obtain ⟨hbuf, hpg, htile, hdiv⟩ := hI
  rcases hres : pagesLoop s.mem s.buf (arenaEnd s) pgs none s.buf with _ | tlh
  · have heq : (allocatePages s pgs).2 = s := by simp only [allocatePages, hres]
    rw [heq]
    exact ⟨hbuf, hpg, htile, hdiv⟩
  · obtain ⟨t, lo, hi⟩ := tlh
    have hspec2 : t ∈ tagList s.mem s.buf (arenaEnd s) s.buf ∧ s.mem t % 2 = 0 ∧
        getPageAlignedPart s.mem t pgs = some (lo, hi) := by
      rcases pagesLoop_spec s.mem s.buf (arenaEnd s) pgs s.buf none t lo hi hres with h | h
      · exact Option.noConfusion h
      · exact h
    obtain ⟨hmem, hfree, hgpap⟩ := hspec2
    have h4t : 4 ∣ t :=
      tagList_mem_mod4 s.mem s.buf (arenaEnd s) s.buf (by omega) hdiv t hmem
    obtain ⟨hhi0, hhiEq, hhiN, htlo, hlo4, hbig, hlo40, hhiAl⟩ :=
      gpap_facts s.mem t pgs lo hi h4t hp hgpap
    have hbnd := tagList_mem_bounds s.mem s.buf (arenaEnd s) s.buf t hmem
    have hNle : tagNext s.mem t ≤ arenaEnd s :=
      tagNext_le_nd s.mem s.buf (arenaEnd s) s.buf htile t hmem
    have hNval : tagNext s.mem t = t + 4 + wsize (s.mem t) := rfl
    have hdivt : 4 ∣ wsize (s.mem t) := hdiv t hmem
    have h4N : 4 ∣ tagNext s.mem t := by rw [hNval]; omega
    have hlolt : lo < hi := by omega
    have hlocond : s.buf ≤ lo ∧ lo < arenaEnd s := by omega
    by_cases hexact : t = lo ∧ tagNext s.mem t = hi
    · have heq : (allocatePages s pgs).2
          = { s with mem := memSet s.mem t (setAllocated (s.mem t)) } := by
        simp only [allocatePages, hres]
        rw [if_pos hexact]
      rw [heq]
      refine Inv_size_preserving s _ ⟨hbuf, hpg, htile, hdiv⟩ ?_
      intro x
      by_cases hx : x = t
      · subst hx
        rw [memSet_same]
        exact wsize_setAllocated _
      · rw [memSet_other _ _ _ _ hx]
    · have heq : (allocatePages s pgs).2
          = { s with mem := pagesSplit s.mem s.buf (arenaEnd s) t lo hi pgs } := by
        simp only [allocatePages, hres]
        rw [if_neg hexact]
      rw [heq]
      by_cases hhiCase : hi = tagNext s.mem t
      · -- two-way split: low remainder then the carved block, which ends the block
        have hlot : t + 4 ≤ lo := by
          rcases hlo4 with h | h
          · exact absurd ⟨h.symm, hhiCase.symm⟩ hexact
          · exact h
        have hform : pagesSplit s.mem s.buf (arenaEnd s) t lo hi pgs
            = memSet (memSet s.mem t (setFree (setSize (s.mem t) (lo - (t + 4))))) lo
                (setAllocated (setSize
                  (memSet s.mem t (setFree (setSize (s.mem t) (lo - (t + 4)))) lo)
                  (4096 * pgs))) := by
          have hnn : ¬(hi ≠ tagNext s.mem t) := fun hc => hc hhiCase
          simp only [pagesSplit]
          rw [if_pos hlocond, if_neg hnn]
        rw [hform]
        set E := memSet (memSet s.mem t (setFree (setSize (s.mem t) (lo - (t + 4))))) lo
                (setAllocated (setSize
                  (memSet s.mem t (setFree (setSize (s.mem t) (lo - (t + 4)))) lo)
                  (4096 * pgs))) with hE
        have hv_lo : E lo = setAllocated (setSize
            (memSet s.mem t (setFree (setSize (s.mem t) (lo - (t + 4)))) lo) (4096 * pgs)) := by
          rw [hE, memSet_same]
        have hv_t : E t = lo - (t + 4) := by
          rw [hE, memSet_other _ _ _ _ (by omega), memSet_same,
            setFree_setSize _ _ (by omega)]
        have hwlo : wsize (E lo) = 4096 * pgs := by
          rw [hv_lo, wsize_allocSize _ _ (by omega)]
        have hlowE : ∀ x, x < t → E x = s.mem x := by
          intro x hx
          rw [hE, memSet_other _ _ _ _ (by omega), memSet_other _ _ _ _ (by omega)]
        have hhiE : ∀ x, tagNext s.mem t ≤ x → x < arenaEnd s → E x = s.mem x := by
          intro x hx _
          rw [hE, memSet_other _ _ _ _ (by omega), memSet_other _ _ _ _ (by omega)]
        have hcongr := tagList_congr s.mem E s.buf (arenaEnd s) (tagNext s.mem t) hhiE
        have hnxT : tagNext E t = lo := by
          unfold tagNext
          rw [hv_t, wsize_of_even _ (by omega)]
          omega
        have hnxLo : tagNext E lo = tagNext s.mem t := by
          unfold tagNext
          rw [hwlo]
          omega
        refine Inv_rebuild s E t ⟨hbuf, hpg, htile, hdiv⟩ hmem hlowE ?_ ?_
        · rw [chainEnd_eq E s.buf (arenaEnd s) t, if_pos ⟨hbnd.1, hbnd.2.2⟩, hnxT,
            chainEnd_eq E s.buf (arenaEnd s) lo, if_pos hlocond, hnxLo, hcongr.2]
          exact chainEnd_from_next s.mem s.buf (arenaEnd s) s.buf t htile hmem
        · have hlist : tagList E s.buf (arenaEnd s) t
              = t :: lo :: tagList s.mem s.buf (arenaEnd s) (tagNext s.mem t) := by
            rw [tagList_eq E s.buf (arenaEnd s) t, if_pos ⟨hbnd.1, hbnd.2.2⟩, hnxT,
              tagList_eq E s.buf (arenaEnd s) lo, if_pos hlocond, hnxLo, hcongr.1]
          rw [hlist]
          intro b hb
          rcases List.mem_cons.mp hb with h | h
          · subst h
            rw [hv_t, wsize_of_even _ (by omega)]
            omega
          · rcases List.mem_cons.mp h with h2 | h2
            · subst h2
              rw [hwlo]
              omega
            · have hbb := tagList_mem_bounds s.mem s.buf (arenaEnd s) _ b h2
              rw [hhiE b hbb.2.1 hbb.2.2]
              exact hdiv b (tagList_next_sub s.mem s.buf (arenaEnd s) s.buf t hmem h2)
      · -- the carve stops short of the block's next tag: high remainder written
        have hne : hi ≠ tagNext s.mem t := hhiCase
        have hhilt : hi < tagNext s.mem t := by omega
        have hhibnd : s.buf ≤ hi ∧ hi < arenaEnd s := by omega
        have h4hi : 4 ∣ hi := by omega
        have hhi4N : hi + 4 ≤ tagNext s.mem t := by omega
        have hform : pagesSplit s.mem s.buf (arenaEnd s) t lo hi pgs
            = memSet (memSet
                (memSet s.mem hi (setFree (setSize (s.mem hi) (tagNext s.mem t - (hi + 4)))))
                t (setFree (setSize (s.mem t) (lo - (t + 4))))) lo
                (setAllocated (setSize
                  (memSet
                    (memSet s.mem hi
                      (setFree (setSize (s.mem hi) (tagNext s.mem t - (hi + 4)))))
                    t (setFree (setSize (s.mem t) (lo - (t + 4)))) lo)
                  (4096 * pgs))) := by
          simp only [pagesSplit]
          rw [if_pos hlocond, if_pos hne, if_pos hhibnd,
            memSet_other s.mem hi (setFree (setSize (s.mem hi) (tagNext s.mem t - (hi + 4)))) t
              (by omega)]
        rw [hform]
        set E := memSet (memSet
                (memSet s.mem hi (setFree (setSize (s.mem hi) (tagNext s.mem t - (hi + 4)))))
                t (setFree (setSize (s.mem t) (lo - (t + 4))))) lo
                (setAllocated (setSize
                  (memSet
                    (memSet s.mem hi
                      (setFree (setSize (s.mem hi) (tagNext s.mem t - (hi + 4)))))
                    t (setFree (setSize (s.mem t) (lo - (t + 4)))) lo)
                  (4096 * pgs))) with hE
        have hwlo : wsize (E lo) = 4096 * pgs := by
          rw [hE, memSet_same, wsize_allocSize _ _ (by omega)]
        have hmodlo : E lo % 2 = 1 := by
          rw [hE, memSet_same]
          exact orOne_mod _
        have hv_hi : E hi = tagNext s.mem t - (hi + 4) := by
          rw [hE, memSet_other _ _ _ _ (by omega), memSet_other _ _ _ _ (by omega),
            memSet_same, setFree_setSize _ _ (by omega)]
        have hlowE : ∀ x, x < t → E x = s.mem x := by
          intro x hx
          rw [hE, memSet_other _ _ _ _ (by omega), memSet_other _ _ _ _ (by omega),
            memSet_other _ _ _ _ (by omega)]
        have hhiE : ∀ x, tagNext s.mem t ≤ x → x < arenaEnd s → E x = s.mem x := by
          intro x hx _
          rw [hE, memSet_other _ _ _ _ (by omega), memSet_other _ _ _ _ (by omega),
            memSet_other _ _ _ _ (by omega)]
        have hcongr := tagList_congr s.mem E s.buf (arenaEnd s) (tagNext s.mem t) hhiE
        have hnxHi : tagNext E hi = tagNext s.mem t := by
          unfold tagNext
          rw [hv_hi, wsize_of_even _ (by omega)]
          omega
        have hnxLo : tagNext E lo = hi := by
          unfold tagNext
          rw [hwlo]
          omega
        have hchainHi : chainEnd E s.buf (arenaEnd s) hi = arenaEnd s := by
          rw [chainEnd_eq E s.buf (arenaEnd s) hi, if_pos hhibnd, hnxHi, hcongr.2]
          exact chainEnd_from_next s.mem s.buf (arenaEnd s) s.buf t htile hmem
        have hlistHi : tagList E s.buf (arenaEnd s) hi
            = hi :: tagList s.mem s.buf (arenaEnd s) (tagNext s.mem t) := by
          rw [tagList_eq E s.buf (arenaEnd s) hi, if_pos hhibnd, hnxHi, hcongr.1]
        have hdivHi : ∀ b ∈ tagList E s.buf (arenaEnd s) hi, 4 ∣ wsize (E b) := by
          rw [hlistHi]
          intro b hb
          rcases List.mem_cons.mp hb with h | h
          · subst h
            rw [hv_hi, wsize_of_even _ (by omega)]
            omega
          · have hbb := tagList_mem_bounds s.mem s.buf (arenaEnd s) _ b h
            rw [hhiE b hbb.2.1 hbb.2.2]
            exact hdiv b (tagList_next_sub s.mem s.buf (arenaEnd s) s.buf t hmem h)
        rcases hlo4 with hloT | hlot
        · -- the carve begins at the block's payload start: `t` is the carved tag
          rw [hloT] at hnxLo hwlo
          refine Inv_rebuild s E t ⟨hbuf, hpg, htile, hdiv⟩ hmem hlowE ?_ ?_
          · rw [chainEnd_eq E s.buf (arenaEnd s) t, if_pos ⟨hbnd.1, hbnd.2.2⟩, hnxLo]
            exact hchainHi
          · have hlist : tagList E s.buf (arenaEnd s) t
                = t :: tagList E s.buf (arenaEnd s) hi := by
              rw [tagList_eq E s.buf (arenaEnd s) t, if_pos ⟨hbnd.1, hbnd.2.2⟩, hnxLo]
            rw [hlist]
            intro b hb
            rcases List.mem_cons.mp hb with h | h
            · subst h
              rw [hwlo]
              omega
            · exact hdivHi b h
        · -- three-way split: low remainder, carved block, high remainder
          have hv_t : E t = lo - (t + 4) := by
            rw [hE, memSet_other _ _ _ _ (by omega), memSet_same,
              setFree_setSize _ _ (by omega)]
          have hnxT : tagNext E t = lo := by
            unfold tagNext
            rw [hv_t, wsize_of_even _ (by omega)]
            omega
          refine Inv_rebuild s E t ⟨hbuf, hpg, htile, hdiv⟩ hmem hlowE ?_ ?_
          · rw [chainEnd_eq E s.buf (arenaEnd s) t, if_pos ⟨hbnd.1, hbnd.2.2⟩, hnxT,
              chainEnd_eq E s.buf (arenaEnd s) lo, if_pos hlocond, hnxLo]
            exact hchainHi
          · have hlist : tagList E s.buf (arenaEnd s) t
                = t :: lo :: tagList E s.buf (arenaEnd s) hi := by
              rw [tagList_eq E s.buf (arenaEnd s) t, if_pos ⟨hbnd.1, hbnd.2.2⟩, hnxT,
                tagList_eq E s.buf (arenaEnd s) lo, if_pos hlocond, hnxLo]
            rw [hlist]
            intro b hb
            rcases List.mem_cons.mp hb with h | h
            · subst h
              rw [hv_t, wsize_of_even _ (by omega)]
              omega
            · rcases List.mem_cons.mp h with h2 | h2
              · subst h2
                rw [hwlo]
                omega
              · exact hdivHi b h2

/-! ## The recalculation pass -/

/-- The recalculation loop never rewrites a word that is currently
allocated: its only writes target free words and write free words. -/
theorem recalcLoopAux_keeps_alloc (st nd : Nat) :
    ∀ f m largest prev x, m x % 2 = 1 →
      (recalcLoopAux st nd f m largest prev).1 x = m x := by
  intro f
  induction f with
  | zero => intro m largest prev x hx; rfl
  | succ f ih =>
    intro m largest prev x hx
    simp only [recalcLoopAux]
    by_cases h1 : st ≤ tagNext m prev ∧ tagNext m prev < nd
    · rw [if_pos h1]
      by_cases h2 : m prev % 2 = 0 ∧ m (tagNext m prev) % 2 = 0
      · rw [if_pos h2]
        have hxp : x ≠ prev := by
          intro he
          rw [he] at hx
          omega
        have hm2x : memSet m prev
            (setSize (m prev) (wsize (m prev) + wsize (m (tagNext m prev)) + 4)) x = m x :=
          memSet_other _ _ _ _ hxp
        rw [ih _ _ _ x (by rw [hm2x]; exact hx), hm2x]
      · rw [if_neg h2]
        by_cases h3 : m (tagNext m prev) % 2 = 0
        · rw [if_pos h3]
          exact ih _ _ _ x hx
        · rw [if_neg h3]
          exact ih _ _ _ x hx
    · rw [if_neg h1]

/-- Valid resumption point for the recalculation cursor: either a live
chain tag, or an absorbed (stale) tag whose recorded successor rejoins the
chain (or leaves the arena). -/
def ResumeOk (m : Mem) (st nd prev : Nat) : Prop :=
  prev ∈ tagList m st nd st ∨
  (prev ∉ tagList m st nd st ∧ (tagNext m prev ∈ tagList m st nd st ∨ nd ≤ tagNext m prev))

/-- The recalculation loop preserves exact tiling and tag-aligned sizes. -/
theorem recalcLoopAux_inv (st nd : Nat) :
    ∀ f m largest prev,
      chainEnd m st nd st = nd →
      (∀ b ∈ tagList m st nd st, 4 ∣ wsize (m b)) →
      ResumeOk m st nd prev →
      chainEnd (recalcLoopAux st nd f m largest prev).1 st nd st = nd ∧
      (∀ b ∈ tagList (recalcLoopAux st nd f m largest prev).1 st nd st,
        4 ∣ wsize ((recalcLoopAux st nd f m largest prev).1 b)) := by
  intro f
  induction f with
  | zero => intro m largest prev htile hdiv _; exact ⟨htile, hdiv⟩
  | succ f ih =>
    intro m largest prev htile hdiv hR
    simp only [recalcLoopAux]
    by_cases h1 : st ≤ tagNext m prev ∧ tagNext m prev < nd
    · rw [if_pos h1]
      have hcmem : tagNext m prev ∈ tagList m st nd st := by
        rcases hR with h | h
        · exact tagNext_mem m st nd st prev h h1.2
        · rcases h.2 with h2 | h2
          · exact h2
          · omega
      by_cases h2 : m prev % 2 = 0 ∧ m (tagNext m prev) % 2 = 0
      · rw [if_pos h2]
        rcases hR with hRp | hRp
        · -- genuine merge of two adjacent chain blocks
          have hpb := tagList_mem_bounds m st nd st prev hRp
          have hveq : setSize (m prev) (wsize (m prev) + wsize (m (tagNext m prev)) + 4)
              = wsize (m prev) + wsize (m (tagNext m prev)) + 4 := by
            unfold setSize
            rw [if_neg (by omega)]
          have hd_le : tagNext m (tagNext m prev) ≤ nd :=
            tagNext_le_nd m st nd st htile _ hcmem
          have hlow : ∀ x, x < prev →
              memSet m prev (setSize (m prev)
                (wsize (m prev) + wsize (m (tagNext m prev)) + 4)) x = m x := by
            intro x hx
            exact memSet_other _ _ _ _ (by omega)
          have hsplit := tagList_split m
            (memSet m prev (setSize (m prev) (wsize (m prev) + wsize (m (tagNext m prev)) + 4)))
            st nd prev st hRp hlow
          have hv_prev : memSet m prev (setSize (m prev)
              (wsize (m prev) + wsize (m (tagNext m prev)) + 4)) prev
              = wsize (m prev) + wsize (m (tagNext m prev)) + 4 := by
            rw [memSet_same, hveq]
          have hpv : tagNext m prev = prev + 4 + wsize (m prev) := rfl
          have hdv : tagNext m (tagNext m prev)
              = tagNext m prev + 4 + wsize (m (tagNext m prev)) := rfl
          have hcgt : prev < tagNext m prev := by omega
          have hdgt : tagNext m prev < tagNext m (tagNext m prev) := by omega
          have hnx2 : tagNext (memSet m prev (setSize (m prev)
              (wsize (m prev) + wsize (m (tagNext m prev)) + 4))) prev
              = tagNext m (tagNext m prev) := by
            have hstep : tagNext (memSet m prev (setSize (m prev)
                (wsize (m prev) + wsize (m (tagNext m prev)) + 4))) prev
                = prev + 4 + wsize (memSet m prev (setSize (m prev)
                  (wsize (m prev) + wsize (m (tagNext m prev)) + 4)) prev) := rfl
            rw [hstep, hv_prev, wsize_of_even _ (by
              have e1 := wsize_even (m prev)
              have e2 := wsize_even (m (tagNext m prev))
              omega)]
            omega
          have hagree_hi : ∀ x, tagNext m (tagNext m prev) ≤ x → x < nd →
              memSet m prev (setSize (m prev)
                (wsize (m prev) + wsize (m (tagNext m prev)) + 4)) x = m x := by
            intro x hx _
            exact memSet_other _ _ _ _ (by omega)
          have hcongr := tagList_congr m
            (memSet m prev (setSize (m prev) (wsize (m prev) + wsize (m (tagNext m prev)) + 4)))
            st nd (tagNext m (tagNext m prev)) hagree_hi
          have hchain_d : chainEnd (memSet m prev (setSize (m prev)
              (wsize (m prev) + wsize (m (tagNext m prev)) + 4))) st nd
              (tagNext m (tagNext m prev)) = nd := by
            rw [hcongr.2]
            exact chainEnd_from_next m st nd st (tagNext m prev) htile hcmem
          have htile2 : chainEnd (memSet m prev (setSize (m prev)
              (wsize (m prev) + wsize (m (tagNext m prev)) + 4))) st nd st = nd := by
            rw [hsplit.2, chainEnd_eq _ st nd prev, if_pos ⟨hpb.1, hpb.2.2⟩, hnx2]
            exact hchain_d
          have hlist2 : tagList (memSet m prev (setSize (m prev)
              (wsize (m prev) + wsize (m (tagNext m prev)) + 4))) st nd prev
              = prev :: tagList m st nd (tagNext m (tagNext m prev)) := by
            rw [tagList_eq _ st nd prev, if_pos ⟨hpb.1, hpb.2.2⟩, hnx2, hcongr.1]
          have hdiv2 : ∀ b ∈ tagList (memSet m prev (setSize (m prev)
              (wsize (m prev) + wsize (m (tagNext m prev)) + 4))) st nd st,
              4 ∣ wsize (memSet m prev (setSize (m prev)
                (wsize (m prev) + wsize (m (tagNext m prev)) + 4)) b) := by
            intro b hb
            rcases (hsplit.1 b).mp hb with ⟨hbo, hblt⟩ | hbn
            · rw [hlow b hblt]
              exact hdiv b hbo
            · rw [hlist2] at hbn
              rcases List.mem_cons.mp hbn with h | h
              · rw [h, hv_prev, wsize_of_even _ (by
                  have e1 := wsize_even (m prev)
                  have e2 := wsize_even (m (tagNext m prev))
                  omega)]
                have d1 := hdiv prev hRp
                have d2 := hdiv _ hcmem
                omega
              · have hbb := tagList_mem_bounds m st nd _ b h
                rw [memSet_other _ _ _ _ (by omega)]
                exact hdiv b (tagList_next_sub m st nd st (tagNext m prev) hcmem h)
          have hRnew : ResumeOk (memSet m prev (setSize (m prev)
              (wsize (m prev) + wsize (m (tagNext m prev)) + 4))) st nd (tagNext m prev) := by
            right
            have hval_c : memSet m prev (setSize (m prev)
                (wsize (m prev) + wsize (m (tagNext m prev)) + 4)) (tagNext m prev)
                = m (tagNext m prev) := memSet_other _ _ _ _ (by omega)
            have hnx_c : tagNext (memSet m prev (setSize (m prev)
                (wsize (m prev) + wsize (m (tagNext m prev)) + 4))) (tagNext m prev)
                = tagNext m (tagNext m prev) := by
              show tagNext m prev + 4 + wsize (memSet m prev (setSize (m prev)
                (wsize (m prev) + wsize (m (tagNext m prev)) + 4)) (tagNext m prev))
                = tagNext m (tagNext m prev)
              rw [hval_c]
              exact hdv.symm
            constructor
            · intro hcm
              rcases (hsplit.1 (tagNext m prev)).mp hcm with ⟨_, hblt⟩ | hbn
              · omega
              · rw [hlist2] at hbn
                rcases List.mem_cons.mp hbn with h | h
                · omega
                · have hbb := tagList_mem_bounds m st nd _ _ h
                  omega
            · rw [hnx_c]
              by_cases hd : tagNext m (tagNext m prev) < nd
              · left
                refine (hsplit.1 _).mpr (Or.inr ?_)
                rw [hlist2]
                refine List.mem_cons_of_mem prev ?_
                exact tagList_self_mem m st nd _ (by omega) hd
              · right
                omega
          exact ih _ _ _ htile2 hdiv2 hRnew
        · -- stale cursor: the write lands inside an already-merged block
          have hnm := tagList_write_nonmember m st nd prev
            (setSize (m prev) (wsize (m prev) + wsize (m (tagNext m prev)) + 4)) st hRp.1
          have htile2 : chainEnd (memSet m prev (setSize (m prev)
              (wsize (m prev) + wsize (m (tagNext m prev)) + 4))) st nd st = nd := by
            rw [hnm.2]
            exact htile
          have hdiv2 : ∀ b ∈ tagList (memSet m prev (setSize (m prev)
              (wsize (m prev) + wsize (m (tagNext m prev)) + 4))) st nd st,
              4 ∣ wsize (memSet m prev (setSize (m prev)
                (wsize (m prev) + wsize (m (tagNext m prev)) + 4)) b) := by
            intro b hb
            rw [hnm.1] at hb
            have hbp : b ≠ prev := by
              intro he
              rw [he] at hb
              exact hRp.1 hb
            rw [memSet_other _ _ _ _ hbp]
            exact hdiv b hb
          have hRnew : ResumeOk (memSet m prev (setSize (m prev)
              (wsize (m prev) + wsize (m (tagNext m prev)) + 4))) st nd (tagNext m prev) := by
            left
            rw [hnm.1]
            exact hcmem
          exact ih _ _ _ htile2 hdiv2 hRnew
      · rw [if_neg h2]
        have hRnew : ResumeOk m st nd (tagNext m prev) := Or.inl hcmem
        by_cases h3 : m (tagNext m prev) % 2 = 0
        · rw [if_pos h3]
          exact ih _ _ _ htile hdiv hRnew
        · rw [if_neg h3]
          exact ih _ _ _ htile hdiv hRnew
    · rw [if_neg h1]
      exact ⟨htile, hdiv⟩

/-- `recalculate` preserves the invariant (it may merge adjacent free
blocks, but the result still tiles the arena). -/
theorem recalculate_inv (s : Alloc) (hI : Inv s) : Inv (recalculate s) := by
  obtain ⟨hbuf, hpg, htile, hdiv⟩ := hI
  have hndgt : s.buf < arenaEnd s := by
    unfold arenaEnd byteLen
    have : 4096 * 1 ≤ 4096 * s.pages := Nat.mul_le_mul_left 4096 hpg
    omega
  have hstart : ResumeOk s.mem s.buf (arenaEnd s) s.buf :=
    Or.inl (tagList_self_mem s.mem s.buf (arenaEnd s) s.buf (Nat.le_refl _) hndgt)
  have h := recalcLoopAux_inv s.buf (arenaEnd s) (arenaEnd s) s.mem
    (if s.mem s.buf % 2 = 0 then pgSize (wsize (s.mem s.buf)) - 1 else 0) s.buf
    htile hdiv hstart
  exact ⟨hbuf, hpg, h.1, h.2⟩

/-- `recalculate` never touches an allocated tag word. -/
theorem recalculate_keeps_alloc (s : Alloc) (x : Nat) (hx : s.mem x % 2 = 1) :
    (recalculate s).mem x = s.mem x :=
  recalcLoopAux_keeps_alloc s.buf (arenaEnd s) (arenaEnd s) s.mem _ s.buf x hx

/-! ## Invariant through the public interface -/

theorem deallocateSmall_inv (s : Alloc) (ptr msize : Nat) (hI : Inv s) :
    Inv (deallocateSmall s ptr msize) := by
  unfold deallocateSmall
  by_cases h : s.buf ≤ ptr - 4 ∧ ptr - 4 < arenaEnd s
  · rw [if_pos h]
    refine Inv_size_preserving s _ hI ?_
    intro x
    by_cases hx : x = ptr - 4
    · subst hx
      rw [memSet_same]
      exact wsize_setFree _
    · rw [memSet_other _ _ _ _ hx]
  · rw [if_neg h]
    exact hI

theorem realDeallocate_inv (s : Alloc) (ptr req : Nat) (hI : Inv s) :
    Inv (realDeallocate s ptr req) := by
  unfold realDeallocate
  by_cases h : 4096 ≤ req
  · rw [if_pos h]
    exact deallocateSmall_inv s ptr _ hI
  · rw [if_neg h]
    exact deallocateSmall_inv s ptr _ hI

theorem deallocate_inv (s : Alloc) (ptr size align : Nat) (hI : Inv s) :
    Inv (deallocate s ptr size align) :=
  recalculate_inv _ (realDeallocate_inv s ptr (round4 size) hI)

theorem realAllocate_inv (s : Alloc) (size : Nat) (hI : Inv s) (h4 : 4 ∣ size) :
    Inv (realAllocate s size).2 := by
  unfold realAllocate
  by_cases h1 : s.largest + 1 < pgSize size
  · rw [if_pos h1]
    exact hI
  · rw [if_neg h1]
    by_cases h2 : 4096 ≤ size
    · rw [if_pos h2]
      refine allocatePages_inv s (pgSize size) hI ?_
      unfold pgSize
      omega
    · rw [if_neg h2]
      exact allocateSmall_inv s size hI h4 (by omega)

theorem allocate_inv (s : Alloc) (size align : Nat) (hI : Inv s) :
    Inv (allocate s size align).2 := by
  show Inv (recalculate (realAllocate s (round4 size)).2)
  exact recalculate_inv _ (realAllocate_inv s (round4 size) hI (round4_dvd size))

theorem newAlloc_inv (buf pages threshold : Nat) (m0 : Mem) (hb : 4096 ∣ buf)
    (hp : 1 ≤ pages) : Inv (newAlloc buf pages threshold m0) := by
  have hnd : arenaEnd (newAlloc buf pages threshold m0) = buf + 4096 * pages := rfl
  have hbv : (newAlloc buf pages threshold m0).mem buf = 4096 * pages - 4 := by
    show (if buf = buf then 4096 * pages - 4
      else if buf ≤ buf ∧ buf < buf + 4096 * pages then 0
      else m0 buf) = 4096 * pages - 4
    rw [if_pos rfl]
  have hlt : buf < buf + 4096 * pages := by
    have : 4096 * 1 ≤ 4096 * pages := Nat.mul_le_mul_left 4096 hp
    omega
  have hwb : wsize ((newAlloc buf pages threshold m0).mem buf) = 4096 * pages - 4 := by
    rw [hbv]
    exact wsize_of_even _ (by omega)
  have hnx : tagNext (newAlloc buf pages threshold m0).mem buf = buf + 4096 * pages := by
    show buf + 4 + wsize ((newAlloc buf pages threshold m0).mem buf) = buf + 4096 * pages
    rw [hwb]
    have : 4096 * 1 ≤ 4096 * pages := Nat.mul_le_mul_left 4096 hp
    omega
  refine ⟨hb, hp, ?_, ?_⟩
  · show chainEnd (newAlloc buf pages threshold m0).mem buf (buf + 4096 * pages) buf
      = buf + 4096 * pages
    rw [chainEnd_eq, if_pos ⟨Nat.le_refl _, hlt⟩, hnx, chainEnd_eq, if_neg (by omega)]
  · intro b hbm
    have hbm2 : b ∈ tagList (newAlloc buf pages threshold m0).mem buf
        (buf + 4096 * pages) buf := hbm
    rw [tagList_eq, if_pos ⟨Nat.le_refl _, hlt⟩, hnx, tagList_eq, if_neg (by omega)] at hbm2
    rcases List.mem_cons.mp hbm2 with h | h
    · rw [h, hwb]
      omega
    · exact absurd h (List.not_mem_nil b)

theorem step_inv (s : Alloc) (o : Op) (hI : Inv s) : Inv (step s o) := by
  cases o with
  | alloc n => exact allocate_inv s n 1 hI
  | free p n => exact deallocate_inv s p n 1 hI

theorem run_inv (s : Alloc) (ops : List Op) (hI : Inv s) : Inv (run s ops) := by
  induction ops generalizing s with
  | nil => exact hI
  | cons o os ih => exact ih (step s o) (step_inv s o hI)

/-! ## Field preservation through the public interface -/

theorem recalculate_fields (s : Alloc) : (recalculate s).buf = s.buf
    ∧ (recalculate s).pages = s.pages ∧ (recalculate s).threshold = s.threshold :=
  ⟨rfl, rfl, rfl⟩

theorem allocateSmall_fields (s : Alloc) (req : Nat) : (allocateSmall s req).2.buf = s.buf
    ∧ (allocateSmall s req).2.pages = s.pages
    ∧ (allocateSmall s req).2.threshold = s.threshold := by
  rcases hres : smallLoop s.mem s.buf (arenaEnd s) req none s.buf with t | best
  · simp only [allocateSmall, hres]
    exact ⟨trivial, trivial, trivial⟩
  · rcases best with _ | t
    · simp only [allocateSmall, hres]
      exact ⟨trivial, trivial, trivial⟩
    · simp only [allocateSmall, hres]
      exact ⟨trivial, trivial, trivial⟩

theorem allocatePages_fields (s : Alloc) (pgs : Nat) : (allocatePages s pgs).2.buf = s.buf
    ∧ (allocatePages s pgs).2.pages = s.pages
    ∧ (allocatePages s pgs).2.threshold = s.threshold := by
  rcases hres : pagesLoop s.mem s.buf (arenaEnd s) pgs none s.buf with _ | tlh
  · simp only [allocatePages, hres]
    exact ⟨trivial, trivial, trivial⟩
  · obtain ⟨t, lo, hi⟩ := tlh
    by_cases hexact : t = lo ∧ tagNext s.mem t = hi
    · simp only [allocatePages, hres]
      rw [if_pos hexact]
      exact ⟨rfl, rfl, rfl⟩
    · simp only [allocatePages, hres]
      rw [if_neg hexact]
      exact ⟨rfl, rfl, rfl⟩

theorem realAllocate_fields (s : Alloc) (size : Nat) : (realAllocate s size).2.buf = s.buf
    ∧ (realAllocate s size).2.pages = s.pages
    ∧ (realAllocate s size).2.threshold = s.threshold := by
  unfold realAllocate
  by_cases h1 : s.largest + 1 < pgSize size
  · rw [if_pos h1]
    exact ⟨rfl, rfl, rfl⟩
  · rw [if_neg h1]
    by_cases h2 : 4096 ≤ size
    · rw [if_pos h2]
      exact allocatePages_fields s (pgSize size)
    · rw [if_neg h2]
      exact allocateSmall_fields s size

theorem deallocateSmall_fields (s : Alloc) (ptr msize : Nat) :
    (deallocateSmall s ptr msize).buf = s.buf
    ∧ (deallocateSmall s ptr msize).pages = s.pages
    ∧ (deallocateSmall s ptr msize).threshold = s.threshold := by
  unfold deallocateSmall
  by_cases h : s.buf ≤ ptr - 4 ∧ ptr - 4 < arenaEnd s
  · rw [if_pos h]
    exact ⟨rfl, rfl, rfl⟩
  · rw [if_neg h]
    exact ⟨rfl, rfl, rfl⟩

theorem step_fields (s : Alloc) (o : Op) : (step s o).buf = s.buf
    ∧ (step s o).pages = s.pages ∧ (step s o).threshold = s.threshold := by
  cases o with
  | alloc n =>
    show (recalculate (realAllocate s (round4 n)).2).buf = s.buf ∧ _ ∧ _
    have h1 := realAllocate_fields s (round4 n)
    exact ⟨h1.1, h1.2.1, h1.2.2⟩
  | free p n =>
    show (recalculate (realDeallocate s p (round4 n))).buf = s.buf
      ∧ (recalculate (realDeallocate s p (round4 n))).pages = s.pages
      ∧ (recalculate (realDeallocate s p (round4 n))).threshold = s.threshold
    unfold realDeallocate
    by_cases h : 4096 ≤ round4 n
    · rw [if_pos h]
      have h1 := deallocateSmall_fields s p (4096 * pgSize (round4 n))
      exact ⟨h1.1, h1.2.1, h1.2.2⟩
    · rw [if_neg h]
      have h1 := deallocateSmall_fields s p (round4 n)
      exact ⟨h1.1, h1.2.1, h1.2.2⟩

theorem run_fields (s : Alloc) (ops : List Op) : (run s ops).buf = s.buf
    ∧ (run s ops).pages = s.pages ∧ (run s ops).threshold = s.threshold := by
  induction ops generalizing s with
  | nil => exact ⟨rfl, rfl, rfl⟩
  | cons o os ih =>
    have h1 := step_fields s o
    have h2 := ih (step s o)
    exact ⟨h1.1 ▸ h2.1, h1.2.1 ▸ h2.2.1, h1.2.2 ▸ h2.2.2⟩

/-- Containment and disjointness of payloads, from the invariant. -/
theorem Inv_no_overlap (s : Alloc) (hI : Inv s) :
    ∀ b ∈ tagsOf s, (s.buf ≤ b ∧ b + 4 + wsize (s.mem b) ≤ arenaEnd s) ∧
      ∀ c ∈ tagsOf s, b ≠ c →
        b + 4 + wsize (s.mem b) ≤ c + 4 ∨ c + 4 + wsize (s.mem c) ≤ b + 4 := by
  obtain ⟨hbuf, hpg, htile, hdiv⟩ := hI
  intro b hb
  have hbb := tagList_mem_bounds s.mem s.buf (arenaEnd s) s.buf b hb
  have hble := tagNext_le_nd s.mem s.buf (arenaEnd s) s.buf htile b hb
  have hbv : tagNext s.mem b = b + 4 + wsize (s.mem b) := rfl
  refine ⟨⟨hbb.1, by omega⟩, ?_⟩
  intro c hc hne
  have hcb := tagList_mem_bounds s.mem s.buf (arenaEnd s) s.buf c hc
  have hcv : tagNext s.mem c = c + 4 + wsize (s.mem c) := rfl
  rcases Nat.lt_or_ge b c with h | h
  · have := tagList_ordered s.mem s.buf (arenaEnd s) s.buf b hb c hc h
    omega
  · have hcb2 : c < b := by omega
    have := tagList_ordered s.mem s.buf (arenaEnd s) s.buf c hc b hb hcb2
    omega

/-! ## Claim C1 -/

/-- C1: for every sequence of allocate/deallocate calls on a constructed
allocator, after every public call the arena is partitioned without gaps or
overlaps into consecutive tagged blocks (the walk from the first tag leaves
the arena exactly at its end), no two live allocated payload regions
overlap, and every allocated payload lies fully inside the arena. -/
theorem C1_partition_no_overlap (buf pages threshold : Nat) (m0 : Mem) (ops : List Op)
    (hb : 4096 ∣ buf) (hp : 1 ≤ pages) :
    (run (newAlloc buf pages threshold m0) ops).buf = buf ∧
    (run (newAlloc buf pages threshold m0) ops).pages = pages ∧
    chainEnd (run (newAlloc buf pages threshold m0) ops).mem buf (buf + 4096 * pages) buf
      = buf + 4096 * pages ∧
    (∀ b ∈ tagsOf (run (newAlloc buf pages threshold m0) ops),
      (run (newAlloc buf pages threshold m0) ops).mem b % 2 = 1 →
      buf ≤ b + 4 ∧
      b + 4 + wsize ((run (newAlloc buf pages threshold m0) ops).mem b)
        ≤ buf + 4096 * pages) ∧
    (∀ b ∈ tagsOf (run (newAlloc buf pages threshold m0) ops),
     ∀ c ∈ tagsOf (run (newAlloc buf pages threshold m0) ops),
      (run (newAlloc buf pages threshold m0) ops).mem b % 2 = 1 →
      (run (newAlloc buf pages threshold m0) ops).mem c % 2 = 1 → b ≠ c →
      b + 4 + wsize ((run (newAlloc buf pages threshold m0) ops).mem b) ≤ c + 4 ∨
      c + 4 + wsize ((run (newAlloc buf pages threshold m0) ops).mem c) ≤ b + 4) := by
  have hI := run_inv (newAlloc buf pages threshold m0) ops
    (newAlloc_inv buf pages threshold m0 hb hp)
  have hf := run_fields (newAlloc buf pages threshold m0) ops
  have hfb : (run (newAlloc buf pages threshold m0) ops).buf = buf := hf.1
  have hfp : (run (newAlloc buf pages threshold m0) ops).pages = pages := hf.2.1
  have hno := Inv_no_overlap _ hI
  have hend : arenaEnd (run (newAlloc buf pages threshold m0) ops) = buf + 4096 * pages := by
    unfold arenaEnd byteLen
    rw [hfb, hfp]
  refine ⟨hfb, hfp, ?_, ?_, ?_⟩
  · have h3 := hI.2.2.1
    rw [hfb, hend] at h3
    exact h3
  · intro b hbm _
    have h4 := (hno b hbm).1
    rw [hfb, hend] at h4
    omega
  · intro b hbm c hcm _ _ hne
    exact (hno b hbm).2 c hcm hne

/-- Witness for C1 at a concrete arena and call sequence. -/
theorem C1_partition_no_overlap_witness :
    (4096 ∣ 4096 ∧ 1 ≤ 2) ∧
    ((run (newAlloc 4096 2 16 (fun _ => 0)) [Op.alloc 8, Op.alloc 4096]).buf = 4096 ∧
     (run (newAlloc 4096 2 16 (fun _ => 0)) [Op.alloc 8, Op.alloc 4096]).pages = 2 ∧
     chainEnd (run (newAlloc 4096 2 16 (fun _ => 0)) [Op.alloc 8, Op.alloc 4096]).mem 4096
       (4096 + 4096 * 2) 4096 = 4096 + 4096 * 2 ∧
     (∀ b ∈ tagsOf (run (newAlloc 4096 2 16 (fun _ => 0)) [Op.alloc 8, Op.alloc 4096]),
       (run (newAlloc 4096 2 16 (fun _ => 0)) [Op.alloc 8, Op.alloc 4096]).mem b % 2 = 1 →
       4096 ≤ b + 4 ∧
       b + 4 + wsize ((run (newAlloc 4096 2 16 (fun _ => 0)) [Op.alloc 8, Op.alloc 4096]).mem b)
         ≤ 4096 + 4096 * 2) ∧
     (∀ b ∈ tagsOf (run (newAlloc 4096 2 16 (fun _ => 0)) [Op.alloc 8, Op.alloc 4096]),
      ∀ c ∈ tagsOf (run (newAlloc 4096 2 16 (fun _ => 0)) [Op.alloc 8, Op.alloc 4096]),
       (run (newAlloc 4096 2 16 (fun _ => 0)) [Op.alloc 8, Op.alloc 4096]).mem b % 2 = 1 →
       (run (newAlloc 4096 2 16 (fun _ => 0)) [Op.alloc 8, Op.alloc 4096]).mem c % 2 = 1 →
       b ≠ c →
       b + 4 + wsize ((run (newAlloc 4096 2 16 (fun _ => 0)) [Op.alloc 8, Op.alloc 4096]).mem b)
         ≤ c + 4 ∨
       c + 4 + wsize ((run (newAlloc 4096 2 16 (fun _ => 0)) [Op.alloc 8, Op.alloc 4096]).mem c)
         ≤ b + 4)) :=
  ⟨⟨by decide, by decide⟩,
    C1_partition_no_overlap 4096 2 16 (fun _ => 0) [Op.alloc 8, Op.alloc 4096]
      (by decide) (by decide)⟩

/-! ## Claim C8 -/

/-- C8: `is_memory_low()` is true iff the arena is in use (the first tag is
not a single free block spanning the whole arena) and
`total_pages − largest_free_span_pages` strictly exceeds the threshold. -/
theorem C8_is_memory_low (s : Alloc) :
    (isMemoryLow s = true ↔ (isUsed s = true ∧ s.threshold < s.pages - s.largest)) ∧
    (isUsed s = true ↔ ¬(s.mem s.buf % 2 = 0 ∧ byteLen s - 4 = wsize (s.mem s.buf))) := by
  constructor
  · unfold isMemoryLow
    constructor
    · intro h
      have h2 := (Bool.and_eq_true _ _).mp h
      exact ⟨h2.1, of_decide_eq_true h2.2⟩
    · intro h
      exact (Bool.and_eq_true _ _).mpr ⟨h.1, decide_eq_true h.2⟩
  · unfold isUsed
    constructor
    · intro h
      have h2 : decide (s.mem s.buf % 2 = 0 ∧ byteLen s - 4 = wsize (s.mem s.buf)) = false := by
        cases hd : decide (s.mem s.buf % 2 = 0 ∧ byteLen s - 4 = wsize (s.mem s.buf)) with
        | false => rfl
        | true => rw [hd] at h; exact absurd h (by decide)
      exact of_decide_eq_false h2
    · intro h
      have h2 : decide (s.mem s.buf % 2 = 0 ∧ byteLen s - 4 = wsize (s.mem s.buf)) = false :=
        decide_eq_false h
      rw [h2]
      rfl

/-! ## Claim C9 -/

/-- C9: the free-list walk makes strict progress (each successor address
strictly exceeds the current tag), visits a strictly increasing in-range
sequence of tags, and stops exactly when the computed successor leaves the
arena range; no sentinel tag is involved. -/
theorem C9_walk_terminates (m : Mem) (st nd a : Nat) :
    (∀ b, b < tagNext m b) ∧
    List.Pairwise (· < ·) (tagList m st nd a) ∧
    (∀ b ∈ tagList m st nd a, st ≤ b ∧ b < nd) ∧
    (∀ b ∈ tagList m st nd a, st ≤ tagNext m b → tagNext m b < nd →
      tagNext m b ∈ tagList m st nd a) ∧
    (tagList m st nd a = [] ↔ ¬(st ≤ a ∧ a < nd)) := by
  refine ⟨?_, ?_, ?_, ?_, ?_⟩
  · intro b
    show b < b + 4 + wsize (m b)
    omega
  · refine chainInd m nd (fun a => List.Pairwise (· < ·) (tagList m st nd a)) ?_ ?_ a
    · intro a ha
      rw [tagList_eq, if_neg (by omega)]
      exact List.Pairwise.nil
    · intro a ha ih
      by_cases hc : st ≤ a ∧ a < nd
      · rw [tagList_eq, if_pos hc]
        refine List.Pairwise.cons ?_ ih
        intro x hx
        have h1 := (tagList_mem_bounds m st nd (tagNext m a) x hx).2.1
        have h2 : a < tagNext m a := by
          show a < a + 4 + wsize (m a)
          omega
        omega
      · rw [tagList_eq, if_neg hc]
        exact List.Pairwise.nil
  · intro b hb
    have h := tagList_mem_bounds m st nd a b hb
    exact ⟨h.1, h.2.2⟩
  · intro b hb _ hlt
    exact tagNext_mem m st nd a b hb hlt
  · constructor
    · intro h hc
      rw [tagList_eq, if_pos hc] at h
      exact List.noConfusion h
    · intro h
      rw [tagList_eq, if_neg h]

/-! ## Claim C3 -/

/-- C3: `get_page_aligned_part` is a pure placement query.  On success the
placement's payload start is page-aligned, the placement occupies exactly
the requested pages and ends at or before the block's end, there is room
for a tag immediately before the placement whenever it does not start at
the block's payload start, and the placement is the highest-address
feasible one; it returns `none` exactly when the block is too small once
alignment padding is accounted for. -/
theorem C3_get_page_aligned_part (m : Mem) (a pgs : Nat) (_hfree : m a % 2 = 0)
    (h4 : 4 ∣ a) (hp : 1 ≤ pgs) :
    (getPageAlignedPart m a pgs = none ↔
      wsize (m a) < 4096 * pgs + (4096 - (a + 4) % 4096) % 4096) ∧
    (∀ lo hi, getPageAlignedPart m a pgs = some (lo, hi) →
      (lo + 4) % 4096 = 0 ∧
      hi = lo + 4 + 4096 * pgs ∧
      hi ≤ tagNext m a ∧
      (lo ≠ a → a + 4 ≤ lo) ∧
      (∀ q, q % 4096 = 0 → q + 4096 * pgs ≤ tagNext m a → q ≤ lo + 4)) := by
  refine ⟨gpap_none_iff m a pgs, ?_⟩
  intro lo hi h
  obtain ⟨hhi0, hhiEq, hhiN, htlo, hlo4, hbig, hlo40, hhiAl⟩ := gpap_facts m a pgs lo hi h4 hp h
  refine ⟨hlo40, hhiEq, hhiN, ?_, ?_⟩
  · intro hne
    rcases hlo4 with h1 | h1
    · exact absurd h1 hne
    · exact h1
  · intro q hq hqle
    -- an aligned placement end below the block end is at most the chosen end `hi`
    have hqhi : q + 4096 * pgs ≤ hi := by
      have h1 : (q + 4096 * pgs) % 4096 = 0 := by omega
      omega
    omega

/-- Witness for C3 at a concrete free tag. -/
theorem C3_get_page_aligned_part_witness :
    ((fun _ : Nat => 8192) 4096 % 2 = 0 ∧ 4 ∣ 4096 ∧ 1 ≤ 1) ∧
    ((getPageAlignedPart (fun _ => 8192) 4096 1 = none ↔
      wsize ((fun _ : Nat => 8192) 4096) < 4096 * 1 + (4096 - (4096 + 4) % 4096) % 4096) ∧
    (∀ lo hi, getPageAlignedPart (fun _ => 8192) 4096 1 = some (lo, hi) →
      (lo + 4) % 4096 = 0 ∧
      hi = lo + 4 + 4096 * 1 ∧
      hi ≤ tagNext (fun _ => 8192) 4096 ∧
      (lo ≠ 4096 → 4096 + 4 ≤ lo) ∧
      (∀ q, q % 4096 = 0 → q + 4096 * 1 ≤ tagNext (fun _ => 8192) 4096 → q ≤ lo + 4))) :=
  ⟨⟨by decide, by decide, by decide⟩,
    C3_get_page_aligned_part (fun _ => 8192) 4096 1 (by decide) (by decide) (by decide)⟩

/-! ## Claim C5 (corrected) -/

/-- A failed `real_allocate` leaves the state untouched. -/
theorem realAllocate_none (s : Alloc) (size : Nat)
    (h : (realAllocate s size).1 = none) : (realAllocate s size).2 = s := by
  unfold realAllocate at h ⊢
  by_cases h1 : s.largest + 1 < pgSize size
  · rw [if_pos h1]
  · rw [if_neg h1] at h ⊢
    by_cases h2 : 4096 ≤ size
    · rw [if_pos h2] at h ⊢
      rcases hres : pagesLoop s.mem s.buf (arenaEnd s) (pgSize size) none s.buf with _ | tlh
      · simp only [allocatePages, hres]
      · obtain ⟨t, lo, hi⟩ := tlh
        simp only [allocatePages, hres] at h
        by_cases hexact : t = lo ∧ tagNext s.mem t = hi
        · rw [if_pos hexact] at h
          exact Option.noConfusion h
        · rw [if_neg hexact] at h
          exact Option.noConfusion h
    · rw [if_neg h2] at h ⊢
      rcases hres : smallLoop s.mem s.buf (arenaEnd s) size none s.buf with t | best
      · simp only [allocateSmall, hres] at h
        exact Option.noConfusion h
      · rcases best with _ | t
        · simp only [allocateSmall, hres]
        · simp only [allocateSmall, hres] at h
          exact Option.noConfusion h

/-- C5 (amended): a failed allocation returns null and leaves every
*allocated* tag word unchanged; the unconditional post-call recalculation
may still coalesce adjacent free tags. -/
theorem C5_failed_alloc_keeps_allocated (s : Alloc) (size align : Nat)
    (h : (allocate s size align).1 = none) :
    ∀ x, s.mem x % 2 = 1 → (allocate s size align).2.mem x = s.mem x := by
  intro x hx
  have h1 : (realAllocate s (round4 size)).1 = none := h
  have h2 := realAllocate_none s (round4 size) h1
  show (recalculate (realAllocate s (round4 size)).2).mem x = s.mem x
  rw [h2]
  exact recalculate_keeps_alloc s x hx

/-- Witness for the amended C5. -/
theorem C5_failed_alloc_keeps_allocated_witness :
    ((allocate (newAlloc 4096 1 16 (fun _ => 0)) 8192 1).1 = none) ∧
    (∀ x, (newAlloc 4096 1 16 (fun _ => 0)).mem x % 2 = 1 →
      (allocate (newAlloc 4096 1 16 (fun _ => 0)) 8192 1).2.mem x
        = (newAlloc 4096 1 16 (fun _ => 0)).mem x) :=
  ⟨by decide,
    C5_failed_alloc_keeps_allocated (newAlloc 4096 1 16 (fun _ => 0)) 8192 1 (by decide)⟩

/-- C5 counterexample: from a reachable state (three small allocations,
then freeing them in the order first, third, second), a request for more
pages than the arena holds returns null, yet the first tag's word changes
(the post-call recalculation coalesces the two remaining free blocks). -/
theorem C5_counterexample :
    (allocate (run (newAlloc 4096 2 16 (fun _ => 0))
        [Op.alloc 8, Op.alloc 8, Op.alloc 8, Op.free 4100 8, Op.free 4124 8, Op.free 4112 8])
      12288 1).1 = none ∧
    ¬((allocate (run (newAlloc 4096 2 16 (fun _ => 0))
        [Op.alloc 8, Op.alloc 8, Op.alloc 8, Op.free 4100 8, Op.free 4124 8, Op.free 4112 8])
      12288 1).2.mem 4096 =
      (run (newAlloc 4096 2 16 (fun _ => 0))
        [Op.alloc 8, Op.alloc 8, Op.alloc 8, Op.free 4100 8, Op.free 4124 8, Op.free 4112 8]).mem
        4096) := by
  constructor
  · decide
  · decide

/-! ## Claim C6 (code bug) -/

/-- C6 failing run: allocate three small blocks and free all of them (in
the order first, third, second).  Everything is free again, but one
recalculation pass fails to coalesce three adjacent free blocks (after a
merge the cursor advances into the absorbed tag), so the arena ends as two
free blocks (words 20 and 8164 at 4096 and 4120), `is_used()` is `true`,
and `largest_free_span_pages` is computed from a ghost span. -/
theorem C6_failing_run :
    isUsed (run (newAlloc 4096 2 16 (fun _ => 0))
      [Op.alloc 8, Op.alloc 8, Op.alloc 8, Op.free 4100 8, Op.free 4124 8, Op.free 4112 8])
      = true ∧
    (run (newAlloc 4096 2 16 (fun _ => 0))
      [Op.alloc 8, Op.alloc 8, Op.alloc 8, Op.free 4100 8, Op.free 4124 8, Op.free 4112 8]).mem
      4096 = 20 ∧
    (run (newAlloc 4096 2 16 (fun _ => 0))
      [Op.alloc 8, Op.alloc 8, Op.alloc 8, Op.free 4100 8, Op.free 4124 8, Op.free 4112 8]).mem
      4120 = 8164 ∧
    (run (newAlloc 4096 2 16 (fun _ => 0))
      [Op.alloc 8, Op.alloc 8, Op.alloc 8, Op.free 4100 8, Op.free 4124 8, Op.free 4112 8]).largest
      = 1 := by
  refine ⟨?_, ?_, ?_, ?_⟩ <;> decide

/-! ## Claim C10 -/

/-- With a zero-byte request, the scan cannot end empty-handed once a free
tag is reachable (or a candidate is already recorded). -/
theorem smallLoop_zero (m : Mem) (st nd : Nat) :
    ∀ c, ∀ best : Option Nat,
      ((∃ x ∈ tagList m st nd c, m x % 2 = 0) ∨ best ≠ none) →
      smallLoop m st nd 0 best c ≠ SmallRes.finish none := by
  refine chainInd m nd (fun c => ∀ best : Option Nat,
      ((∃ x ∈ tagList m st nd c, m x % 2 = 0) ∨ best ≠ none) →
      smallLoop m st nd 0 best c ≠ SmallRes.finish none) ?_ ?_
  · intro c hc best hb heq
    rw [smallLoop_eq, if_neg (by omega)] at heq
    injection heq with h2
    rcases hb with ⟨x, hx, _⟩ | hb
    · rw [tagList_eq, if_neg (by omega)] at hx
      exact absurd hx (List.not_mem_nil x)
    · exact hb h2
  · intro c hlt ih best hb heq
    by_cases hcond : st ≤ c ∧ c < nd
    · by_cases hfc : m c % 2 = 0
      · have hq : m c % 2 = 0 ∧ 0 ≤ wsize (m c) := ⟨hfc, Nat.zero_le _⟩
        by_cases hex : wsize (m c) = 0 ∨ wsize (m c) = 0 + 4
        · rw [smallLoop_eq, if_pos hcond, if_pos hq, if_pos hex] at heq
          exact SmallRes.noConfusion heq
        · by_cases hcnd : 0 < (match best with | none => 4294967295 | some t => wsize (m t))
          · rw [smallLoop_eq, if_pos hcond, if_pos hq, if_neg hex, if_pos hcnd] at heq
            exact ih (some c) (Or.inr (by intro h; exact Option.noConfusion h)) heq
          · rw [smallLoop_eq, if_pos hcond, if_pos hq, if_neg hex, if_neg hcnd] at heq
            have hbne : best ≠ none := by
              intro h
              rw [h] at hcnd
              have hlim : (0 : Nat) < 4294967295 := by decide
              exact hcnd hlim
            exact ih best (Or.inr hbne) heq
      · rw [smallLoop_eq, if_pos hcond, if_neg (fun hq => hfc hq.1)] at heq
        rcases hb with ⟨x, hx, hxf⟩ | hb
        · rw [tagList_eq, if_pos hcond] at hx
          rcases List.mem_cons.mp hx with h | h
          · rw [h] at hxf
            exact hfc hxf
          · exact ih best (Or.inl ⟨x, h, hxf⟩) heq
        · exact ih best (Or.inr hb) heq
    · rw [smallLoop_eq, if_neg hcond] at heq
      injection heq with h2
      rcases hb with ⟨x, hx, _⟩ | hb
      · rw [tagList_eq, if_neg hcond] at hx
        exact absurd hx (List.not_mem_nil x)
      · exact hb h2

/-- C10: if at least one free block exists, `allocate(0, align)` succeeds
and returns a non-null pointer: the zero-byte request is never rejected as
out-of-memory. -/
theorem C10_zero_allocation (s : Alloc) (align : Nat)
    (hfree : ∃ b ∈ tagsOf s, s.mem b % 2 = 0) :
    ((allocate s 0 align).1).isSome = true := by
  have hrun : smallLoop s.mem s.buf (arenaEnd s) 0 none s.buf ≠ SmallRes.finish none := by
    refine smallLoop_zero s.mem s.buf (arenaEnd s) s.buf none (Or.inl ?_)
    exact hfree
  show ((realAllocate s (round4 0)).1).isSome = true
  have hr0 : round4 0 = 0 := rfl
  rw [hr0]
  unfold realAllocate
  rw [if_neg (by unfold pgSize; omega), if_neg (by omega)]
  rcases hres : smallLoop s.mem s.buf (arenaEnd s) 0 none s.buf with t | best
  · simp only [allocateSmall, hres]
    rfl
  · rcases best with _ | t
    · exact absurd hres hrun
    · simp only [allocateSmall, hres]
      rfl

/-- Witness for C10 on a freshly constructed one-page arena. -/
theorem C10_zero_allocation_witness :
    (∃ b ∈ tagsOf (newAlloc 4096 1 16 (fun _ => 0)),
      (newAlloc 4096 1 16 (fun _ => 0)).mem b % 2 = 0) ∧
    ((allocate (newAlloc 4096 1 16 (fun _ => 0)) 0 1).1).isSome = true :=
  ⟨⟨4096, by decide, by decide⟩,
    C10_zero_allocation (newAlloc 4096 1 16 (fun _ => 0)) 1 ⟨4096, by decide, by decide⟩⟩

/-! ## Claim C4 -/

/-- C4: on a small request, the allocator takes the first exact fit
(size equal to the request or exceeding it by one tag width) anywhere in
the scan; otherwise it picks the last sufficiently large free block of the
full walk (unconditionally replacing earlier candidates), splits it into an
allocated block of exactly the requested size plus a free remainder tag of
size `old − tag − req`, and returns null only when no block qualifies. -/
theorem C4_allocate_small (s : Alloc) (req : Nat) (hI : Inv s) (h4 : 4 ∣ req)
    (hlt : req < 4096) :
    ((allocateSmall s req).1 = none →
      (allocateSmall s req).2 = s ∧ ∀ x ∈ tagsOf s, ¬isQual s.mem req x) ∧
    (∀ p, (allocateSmall s req).1 = some p →
      ∃ t, p = t + 4 ∧ t ∈ tagsOf s ∧
        ((isExactFit s.mem req t ∧
            (∀ x ∈ tagsOf s, x < t → ¬isExactFit s.mem req x) ∧
            (allocateSmall s req).2.mem t = setAllocated (s.mem t)) ∨
          ((∀ x ∈ tagsOf s, ¬isExactFit s.mem req x) ∧
            isQual s.mem req t ∧
            (∀ x ∈ tagsOf s, t < x → ¬isQual s.mem req x) ∧
            wsize ((allocateSmall s req).2.mem t) = req ∧
            (allocateSmall s req).2.mem t % 2 = 1 ∧
            (allocateSmall s req).2.mem (t + 4 + req) = wsize (s.mem t) - 4 - req ∧
            (allocateSmall s req).2.mem (t + 4 + req) % 2 = 0))) := by
  obtain ⟨hbuf, hpg, htile, hdiv⟩ := hI
  have hreq2 : req % 2 = 0 := by omega
  have hspec := smallLoop_spec s.mem s.buf (arenaEnd s) req hreq2 (by omega) s.buf none trivial
  rcases hres : smallLoop s.mem s.buf (arenaEnd s) req none s.buf with t | best
  · obtain ⟨hmem, hfit, hfirst⟩ := hspec.2.1 t hres
    constructor
    · intro h
      simp only [allocateSmall, hres] at h
      exact Option.noConfusion h
    · intro p hp
      have hp2 : p = t + 4 := by
        simp only [allocateSmall, hres] at hp
        exact (Option.some.inj hp).symm
      have heq : (allocateSmall s req).2
          = { s with mem := memSet s.mem t (setAllocated (s.mem t)) } := by
        simp only [allocateSmall, hres]
      refine ⟨t, hp2, hmem, Or.inl ⟨hfit, hfirst, ?_⟩⟩
      rw [heq]
      exact memSet_same _ _ _
  · rcases best with _ | t
    · have h1 := hspec.1 hres
      constructor
      · intro _
        have heq : (allocateSmall s req).2 = s := by simp only [allocateSmall, hres]
        exact ⟨heq, h1.2⟩
      · intro p hp
        simp only [allocateSmall, hres] at hp
        exact Option.noConfusion hp
    · obtain ⟨hmem0, hfree, hgt, hnx, hnoex, hlast⟩ := hspec.2.2 t hres
      have hmem : t ∈ tagList s.mem s.buf (arenaEnd s) s.buf := by
        rcases hmem0 with h | h
        · exact h
        · exact Option.noConfusion h
      have hdivt : 4 ∣ wsize (s.mem t) := hdiv t hmem
      have hold : req + 8 ≤ wsize (s.mem t) := by omega
      have hbnd := tagList_mem_bounds s.mem s.buf (arenaEnd s) s.buf t hmem
      have hNle : tagNext s.mem t ≤ arenaEnd s :=
        tagNext_le_nd s.mem s.buf (arenaEnd s) s.buf htile t hmem
      have hNval : tagNext s.mem t = t + 4 + wsize (s.mem t) := rfl
      have hw1 : wsize (setAllocated (setSize (s.mem t) req)) = req := by
        rw [wsize_setAllocated, wsize_setSize _ _ hreq2]
      have hnt : tagNext (memSet s.mem t (setAllocated (setSize (s.mem t) req))) t
          = t + 4 + req := by
        unfold tagNext
        rw [memSet_same, hw1]
      have hcond2 : s.buf ≤ tagNext (memSet s.mem t (setAllocated (setSize (s.mem t) req))) t
          ∧ tagNext (memSet s.mem t (setAllocated (setSize (s.mem t) req))) t < arenaEnd s := by
        rw [hnt]
        omega
      have heq : (allocateSmall s req).2
          = { s with mem := smallSplit s.mem s.buf (arenaEnd s) t req } := by
        simp only [allocateSmall, hres]
      have hsp : smallSplit s.mem s.buf (arenaEnd s) t req
          = memSet (memSet s.mem t (setAllocated (setSize (s.mem t) req)))
              (t + 4 + req) (wsize (s.mem t) - 4 - req) := by
        unfold smallSplit
        rw [if_pos hcond2, hnt]
      have hv1 : (allocateSmall s req).2.mem t = setAllocated (setSize (s.mem t) req) := by
        rw [heq]
        show smallSplit s.mem s.buf (arenaEnd s) t req t = _
        rw [hsp, memSet_other _ _ _ _ (by omega), memSet_same]
      have hv2 : (allocateSmall s req).2.mem (t + 4 + req) = wsize (s.mem t) - 4 - req := by
        rw [heq]
        show smallSplit s.mem s.buf (arenaEnd s) t req (t + 4 + req) = _
        rw [hsp, memSet_same]
      constructor
      · intro h
        simp only [allocateSmall, hres] at h
        exact Option.noConfusion h
      · intro p hp
        have hp2 : p = t + 4 := by
          simp only [allocateSmall, hres] at hp
          exact (Option.some.inj hp).symm
        refine ⟨t, hp2, hmem, Or.inr ⟨hnoex, ⟨hfree, by omega⟩, hlast, ?_, ?_, hv2, ?_⟩⟩
        · rw [hv1, wsize_setAllocated, wsize_setSize _ _ hreq2]
        · rw [hv1]
          exact orOne_mod _
        · rw [hv2]
          omega

/-- Witness for C4 on a freshly constructed one-page arena. -/
theorem C4_allocate_small_witness :
    (Inv (newAlloc 4096 1 16 (fun _ => 0)) ∧ 4 ∣ 8 ∧ 8 < 4096) ∧
    (((allocateSmall (newAlloc 4096 1 16 (fun _ => 0)) 8).1 = none →
      (allocateSmall (newAlloc 4096 1 16 (fun _ => 0)) 8).2 = newAlloc 4096 1 16 (fun _ => 0) ∧
      ∀ x ∈ tagsOf (newAlloc 4096 1 16 (fun _ => 0)),
        ¬isQual (newAlloc 4096 1 16 (fun _ => 0)).mem 8 x) ∧
    (∀ p, (allocateSmall (newAlloc 4096 1 16 (fun _ => 0)) 8).1 = some p →
      ∃ t, p = t + 4 ∧ t ∈ tagsOf (newAlloc 4096 1 16 (fun _ => 0)) ∧
        ((isExactFit (newAlloc 4096 1 16 (fun _ => 0)).mem 8 t ∧
            (∀ x ∈ tagsOf (newAlloc 4096 1 16 (fun _ => 0)), x < t →
              ¬isExactFit (newAlloc 4096 1 16 (fun _ => 0)).mem 8 x) ∧
            (allocateSmall (newAlloc 4096 1 16 (fun _ => 0)) 8).2.mem t
              = setAllocated ((newAlloc 4096 1 16 (fun _ => 0)).mem t)) ∨
          ((∀ x ∈ tagsOf (newAlloc 4096 1 16 (fun _ => 0)),
              ¬isExactFit (newAlloc 4096 1 16 (fun _ => 0)).mem 8 x) ∧
            isQual (newAlloc 4096 1 16 (fun _ => 0)).mem 8 t ∧
            (∀ x ∈ tagsOf (newAlloc 4096 1 16 (fun _ => 0)), t < x →
              ¬isQual (newAlloc 4096 1 16 (fun _ => 0)).mem 8 x) ∧
            wsize ((allocateSmall (newAlloc 4096 1 16 (fun _ => 0)) 8).2.mem t) = 8 ∧
            (allocateSmall (newAlloc 4096 1 16 (fun _ => 0)) 8).2.mem t % 2 = 1 ∧
            (allocateSmall (newAlloc 4096 1 16 (fun _ => 0)) 8).2.mem (t + 4 + 8)
              = wsize ((newAlloc 4096 1 16 (fun _ => 0)).mem t) - 4 - 8 ∧
            (allocateSmall (newAlloc 4096 1 16 (fun _ => 0)) 8).2.mem (t + 4 + 8) % 2 = 0)))) :=
  ⟨⟨⟨by decide, by decide, by decide, by decide⟩, by decide, by decide⟩,
    C4_allocate_small (newAlloc 4096 1 16 (fun _ => 0)) 8
      ⟨by decide, by decide, by decide, by decide⟩ (by decide) (by decide)⟩

/-! ## Pointwise values of the page split -/

theorem pagesSplit_at_lo (m : Mem) (st nd t lo hi pgs : Nat) (h : st ≤ lo ∧ lo < nd) :
    wsize (pagesSplit m st nd t lo hi pgs lo) = 4096 * pgs ∧
    pagesSplit m st nd t lo hi pgs lo % 2 = 1 := by
  simp only [pagesSplit]
  rw [if_pos h]
  constructor
  · rw [memSet_same]
    exact wsize_allocSize _ _ (by omega)
  · rw [memSet_same]
    exact orOne_mod _

theorem pagesSplit_at_t_noHi (m : Mem) (st nd t lo hi pgs : Nat) (hlo : st ≤ lo ∧ lo < nd)
    (htl : t ≠ lo) (hnn : ¬(hi ≠ tagNext m t)) :
    pagesSplit m st nd t lo hi pgs t = setFree (setSize (m t) (lo - (t + 4))) := by
  simp only [pagesSplit]
  rw [if_pos hlo, memSet_other _ _ _ _ htl, memSet_same, if_neg hnn]

theorem pagesSplit_at_t_hi (m : Mem) (st nd t lo hi pgs : Nat) (hlo : st ≤ lo ∧ lo < nd)
    (htl : t ≠ lo) (hne : hi ≠ tagNext m t) (hhib : st ≤ hi ∧ hi < nd) (hth : t ≠ hi) :
    pagesSplit m st nd t lo hi pgs t = setFree (setSize (m t) (lo - (t + 4))) := by
  simp only [pagesSplit]
  rw [if_pos hlo, memSet_other _ _ _ _ htl, memSet_same, if_pos hne, if_pos hhib,
    memSet_other _ _ _ _ hth]

theorem pagesSplit_at_hi (m : Mem) (st nd t lo hi pgs : Nat) (hlo : st ≤ lo ∧ lo < nd)
    (hne : hi ≠ tagNext m t) (hhib : st ≤ hi ∧ hi < nd) (hhl : hi ≠ lo) (hht : hi ≠ t) :
    pagesSplit m st nd t lo hi pgs hi = setFree (setSize (m hi) (tagNext m t - (hi + 4))) := by
  simp only [pagesSplit]
  rw [if_pos hlo, memSet_other _ _ _ _ hhl, memSet_other _ _ _ _ hht, if_pos hne,
    if_pos hhib, memSet_same]

/-! ## Claim C7 -/

theorem pgSize_round4 (n : Nat) : pgSize (round4 n) = pgSize n := by
  unfold pgSize round4
  omega

/-- Every successful page-granular allocation returns a page-aligned
payload whose tag is allocated and records exactly the requested bytes. -/
theorem allocatePages_result (s : Alloc) (pgs : Nat) (hI : Inv s) (hp1 : 1 ≤ pgs)
    (p : Nat) (hres2 : (allocatePages s pgs).1 = some p) :
    p % 4096 = 0 ∧ (allocatePages s pgs).2.mem (p - 4) % 2 = 1 ∧
    wsize ((allocatePages s pgs).2.mem (p - 4)) = 4096 * pgs := by
  obtain ⟨hbuf, hpg, htile, hdiv⟩ := hI
  rcases hres : pagesLoop s.mem s.buf (arenaEnd s) pgs none s.buf with _ | tlh
  · simp only [allocatePages, hres] at hres2
    exact Option.noConfusion hres2
  · obtain ⟨t, lo, hi⟩ := tlh
    have hspec2 : t ∈ tagList s.mem s.buf (arenaEnd s) s.buf ∧ s.mem t % 2 = 0 ∧
        getPageAlignedPart s.mem t pgs = some (lo, hi) := by
      rcases pagesLoop_spec s.mem s.buf (arenaEnd s) pgs s.buf none t lo hi hres with h | h
      · exact Option.noConfusion h
      · exact h
    obtain ⟨hmem, hfree, hgpap⟩ := hspec2
    have h4t : 4 ∣ t :=
      tagList_mem_mod4 s.mem s.buf (arenaEnd s) s.buf (by omega) hdiv t hmem
    obtain ⟨hhi0, hhiEq, hhiN, htlo, hlo4, hbig, hlo40, hhiAl⟩ :=
      gpap_facts s.mem t pgs lo hi h4t hp1 hgpap
    have hbnd := tagList_mem_bounds s.mem s.buf (arenaEnd s) s.buf t hmem
    have hNle : tagNext s.mem t ≤ arenaEnd s :=
      tagNext_le_nd s.mem s.buf (arenaEnd s) s.buf htile t hmem
    have hNval : tagNext s.mem t = t + 4 + wsize (s.mem t) := rfl
    have hlolt : lo < hi := by omega
    have hlocond : s.buf ≤ lo ∧ lo < arenaEnd s := by omega
    by_cases hexact : t = lo ∧ tagNext s.mem t = hi
    · have hp2 : p = t + 4 := by
        simp only [allocatePages, hres] at hres2
        rw [if_pos hexact] at hres2
        exact (Option.some.inj hres2).symm
      have heq : (allocatePages s pgs).2
          = { s with mem := memSet s.mem t (setAllocated (s.mem t)) } := by
        simp only [allocatePages, hres]
        rw [if_pos hexact]
      have hp4 : p - 4 = t := by omega
      have hv : (allocatePages s pgs).2.mem (p - 4) = setAllocated (s.mem t) := by
        rw [heq, hp4]
        exact memSet_same _ _ _
      refine ⟨by omega, ?_, ?_⟩
      · rw [hv]
        exact orOne_mod _
      · rw [hv, wsize_setAllocated]
        omega
    · have hp2 : p = lo + 4 := by
        simp only [allocatePages, hres] at hres2
        rw [if_neg hexact] at hres2
        exact (Option.some.inj hres2).symm
      have heq : (allocatePages s pgs).2
          = { s with mem := pagesSplit s.mem s.buf (arenaEnd s) t lo hi pgs } := by
        simp only [allocatePages, hres]
        rw [if_neg hexact]
      have hp4 : p - 4 = lo := by omega
      have hvlo := pagesSplit_at_lo s.mem s.buf (arenaEnd s) t lo hi pgs hlocond
      refine ⟨by omega, ?_, ?_⟩
      · rw [heq, hp4]
        exact hvlo.2
      · rw [heq, hp4]
        exact hvlo.1

/-- C7: every allocation of at least one page that returns non-null yields
a page-aligned pointer, and the block's recorded size (read back after the
recalculation pass) is the requested size rounded up to whole pages. -/
theorem C7_page_alignment (s : Alloc) (size align : Nat) (hI : Inv s) (hs : 4096 ≤ size)
    (p : Nat) (hp : (allocate s size align).1 = some p) :
    p % 4096 = 0 ∧ wsize ((allocate s size align).2.mem (p - 4)) = 4096 * pgSize size := by
  have hq : (realAllocate s (round4 size)).1 = some p := hp
  unfold realAllocate at hq
  by_cases h1 : s.largest + 1 < pgSize (round4 size)
  · rw [if_pos h1] at hq
    exact Option.noConfusion hq
  · rw [if_neg h1] at hq
    have h2 : 4096 ≤ round4 size := le_trans hs (round4_ge size)
    rw [if_pos h2] at hq
    have hr := allocatePages_result s (pgSize (round4 size)) hI (by unfold pgSize; omega) p hq
    have hkeep := recalculate_keeps_alloc (allocatePages s (pgSize (round4 size))).2 (p - 4)
      hr.2.1
    have heq2 : (realAllocate s (round4 size)).2
        = (allocatePages s (pgSize (round4 size))).2 := by
      unfold realAllocate
      rw [if_neg h1, if_pos h2]
    refine ⟨hr.1, ?_⟩
    show wsize ((recalculate (realAllocate s (round4 size)).2).mem (p - 4)) = _
    rw [heq2, hkeep, hr.2.2, pgSize_round4]

/-- Witness for C7 on a fresh two-page arena: a one-page request is served
at the page-aligned address 8192. -/
theorem C7_page_alignment_witness :
    (Inv (newAlloc 4096 2 16 (fun _ => 0)) ∧ 4096 ≤ 4096 ∧
      (allocate (newAlloc 4096 2 16 (fun _ => 0)) 4096 1).1 = some 8192) ∧
    (8192 % 4096 = 0 ∧
      wsize ((allocate (newAlloc 4096 2 16 (fun _ => 0)) 4096 1).2.mem (8192 - 4))
        = 4096 * pgSize 4096) :=
  ⟨⟨⟨by decide, by decide, by decide, by decide⟩, by decide, by decide⟩,
    C7_page_alignment (newAlloc 4096 2 16 (fun _ => 0)) 4096 1
      ⟨by decide, by decide, by decide, by decide⟩ (by decide) 8192 (by decide)⟩

/-! ## Claim C2 -/

/-- C2: when the winning carve does not span the whole candidate block, the
allocator performs an up-to-three-way split: the carved middle is
allocated, page-aligned, of exactly the requested bytes, and chains to the
carve end; a low free remainder (reusing the original tag) exists iff the
carve does not begin at the block's payload start, and then chains exactly
to the carved tag; a high free remainder exists iff the carve does not end
at the block's next tag, and then chains exactly to the original next
tag. -/
theorem C2_page_split (s : Alloc) (pgs : Nat) (hI : Inv s) (hp : 1 ≤ pgs) (t lo hi : Nat)
    (hbest : pagesLoop s.mem s.buf (arenaEnd s) pgs none s.buf = some (t, lo, hi))
    (hnotspan : ¬(t = lo ∧ tagNext s.mem t = hi)) :
    (allocatePages s pgs).1 = some (lo + 4) ∧
    (lo + 4) % 4096 = 0 ∧
    wsize ((allocatePages s pgs).2.mem lo) = 4096 * pgs ∧
    (allocatePages s pgs).2.mem lo % 2 = 1 ∧
    tagNext (allocatePages s pgs).2.mem lo = hi ∧
    (lo ≠ t →
      (allocatePages s pgs).2.mem t = lo - (t + 4) ∧
      (allocatePages s pgs).2.mem t % 2 = 0 ∧
      tagNext (allocatePages s pgs).2.mem t = lo) ∧
    (lo = t → (allocatePages s pgs).2.mem t % 2 = 1) ∧
    (hi ≠ tagNext s.mem t →
      (allocatePages s pgs).2.mem hi = tagNext s.mem t - (hi + 4) ∧
      (allocatePages s pgs).2.mem hi % 2 = 0 ∧
      tagNext (allocatePages s pgs).2.mem hi = tagNext s.mem t) := by
  obtain ⟨hbuf, hpg, htile, hdiv⟩ := hI
  have hspec2 : t ∈ tagList s.mem s.buf (arenaEnd s) s.buf ∧ s.mem t % 2 = 0 ∧
      getPageAlignedPart s.mem t pgs = some (lo, hi) := by
    rcases pagesLoop_spec s.mem s.buf (arenaEnd s) pgs s.buf none t lo hi hbest with h | h
    · exact Option.noConfusion h
    · exact h
  obtain ⟨hmem, hfree, hgpap⟩ := hspec2
  have h4t : 4 ∣ t :=
    tagList_mem_mod4 s.mem s.buf (arenaEnd s) s.buf (by omega) hdiv t hmem
  obtain ⟨hhi0, hhiEq, hhiN, htlo, hlo4, hbig, hlo40, hhiAl⟩ :=
    gpap_facts s.mem t pgs lo hi h4t hp hgpap
  have hbnd := tagList_mem_bounds s.mem s.buf (arenaEnd s) s.buf t hmem
  have hNle : tagNext s.mem t ≤ arenaEnd s :=
    tagNext_le_nd s.mem s.buf (arenaEnd s) s.buf htile t hmem
  have hNval : tagNext s.mem t = t + 4 + wsize (s.mem t) := rfl
  have hdivt : 4 ∣ wsize (s.mem t) := hdiv t hmem
  have h4N : 4 ∣ tagNext s.mem t := by rw [hNval]; omega
  have hlolt : lo < hi := by omega
  have hlocond : s.buf ≤ lo ∧ lo < arenaEnd s := by omega
  have heq : (allocatePages s pgs).2
      = { s with mem := pagesSplit s.mem s.buf (arenaEnd s) t lo hi pgs } := by
    simp only [allocatePages, hbest]
    rw [if_neg hnotspan]
  have hres1 : (allocatePages s pgs).1 = some (lo + 4) := by
    simp only [allocatePages, hbest]
    rw [if_neg hnotspan]
  have hvlo := pagesSplit_at_lo s.mem s.buf (arenaEnd s) t lo hi pgs hlocond
  have hvlo_w : wsize ((allocatePages s pgs).2.mem lo) = 4096 * pgs := by
    rw [heq]
    exact hvlo.1
  have hvlo_m : (allocatePages s pgs).2.mem lo % 2 = 1 := by
    rw [heq]
    exact hvlo.2
  have hnxlo : tagNext (allocatePages s pgs).2.mem lo = hi := by
    have h0 : tagNext (allocatePages s pgs).2.mem lo
        = lo + 4 + wsize ((allocatePages s pgs).2.mem lo) := rfl
    rw [h0, hvlo_w]
    omega
  refine ⟨hres1, by omega, hvlo_w, hvlo_m, hnxlo, ?_, ?_, ?_⟩
  · intro hlt
    have htl : t ≠ lo := fun h => hlt h.symm
    have htlo4 : t + 4 ≤ lo := by
      rcases hlo4 with h | h
      · exact absurd h hlt
      · exact h
    have hvt : (allocatePages s pgs).2.mem t = lo - (t + 4) := by
      rw [heq]
      show pagesSplit s.mem s.buf (arenaEnd s) t lo hi pgs t = _
      by_cases hhiCase : hi = tagNext s.mem t
      · rw [pagesSplit_at_t_noHi s.mem s.buf (arenaEnd s) t lo hi pgs hlocond htl
          (fun hc => hc hhiCase)]
        exact setFree_setSize _ _ (by omega)
      · have hhib : s.buf ≤ hi ∧ hi < arenaEnd s := by omega
        rw [pagesSplit_at_t_hi s.mem s.buf (arenaEnd s) t lo hi pgs hlocond htl hhiCase hhib
          (by omega)]
        exact setFree_setSize _ _ (by omega)
    refine ⟨hvt, by rw [hvt]; omega, ?_⟩
    have h0 : tagNext (allocatePages s pgs).2.mem t
        = t + 4 + wsize ((allocatePages s pgs).2.mem t) := rfl
    rw [h0, hvt, wsize_of_even _ (by omega)]
    omega
  · intro hloT
    rw [hloT] at hvlo_m
    exact hvlo_m
  · intro hne
    have hhib : s.buf ≤ hi ∧ hi < arenaEnd s := by omega
    have hvhi : (allocatePages s pgs).2.mem hi = tagNext s.mem t - (hi + 4) := by
      rw [heq]
      show pagesSplit s.mem s.buf (arenaEnd s) t lo hi pgs hi = _
      rw [pagesSplit_at_hi s.mem s.buf (arenaEnd s) t lo hi pgs hlocond hne hhib
        (by omega) (by omega)]
      exact setFree_setSize _ _ (by omega)
    refine ⟨hvhi, by rw [hvhi]; omega, ?_⟩
    have h0 : tagNext (allocatePages s pgs).2.mem hi
        = hi + 4 + wsize ((allocatePages s pgs).2.mem hi) := rfl
    rw [h0, hvhi, wsize_of_even _ (by omega)]
    omega

/-- Witness for C2 on a fresh two-page arena: the one-page carve splits the
single free block into a low remainder and the carved page. -/
theorem C2_page_split_witness :
    (Inv (newAlloc 4096 2 16 (fun _ => 0)) ∧ 1 ≤ 1 ∧
      pagesLoop (newAlloc 4096 2 16 (fun _ => 0)).mem (newAlloc 4096 2 16 (fun _ => 0)).buf
        (arenaEnd (newAlloc 4096 2 16 (fun _ => 0))) 1 none
        (newAlloc 4096 2 16 (fun _ => 0)).buf = some (4096, 8188, 12288) ∧
      ¬(4096 = 8188 ∧ tagNext (newAlloc 4096 2 16 (fun _ => 0)).mem 4096 = 12288)) ∧
    ((allocatePages (newAlloc 4096 2 16 (fun _ => 0)) 1).1 = some (8188 + 4) ∧
    (8188 + 4) % 4096 = 0 ∧
    wsize ((allocatePages (newAlloc 4096 2 16 (fun _ => 0)) 1).2.mem 8188) = 4096 * 1 ∧
    (allocatePages (newAlloc 4096 2 16 (fun _ => 0)) 1).2.mem 8188 % 2 = 1 ∧
    tagNext (allocatePages (newAlloc 4096 2 16 (fun _ => 0)) 1).2.mem 8188 = 12288 ∧
    (8188 ≠ 4096 →
      (allocatePages (newAlloc 4096 2 16 (fun _ => 0)) 1).2.mem 4096 = 8188 - (4096 + 4) ∧
      (allocatePages (newAlloc 4096 2 16 (fun _ => 0)) 1).2.mem 4096 % 2 = 0 ∧
      tagNext (allocatePages (newAlloc 4096 2 16 (fun _ => 0)) 1).2.mem 4096 = 8188) ∧
    (8188 = 4096 →
      (allocatePages (newAlloc 4096 2 16 (fun _ => 0)) 1).2.mem 4096 % 2 = 1) ∧
    (12288 ≠ tagNext (newAlloc 4096 2 16 (fun _ => 0)).mem 4096 →
      (allocatePages (newAlloc 4096 2 16 (fun _ => 0)) 1).2.mem 12288
        = tagNext (newAlloc 4096 2 16 (fun _ => 0)).mem 4096 - (12288 + 4) ∧
      (allocatePages (newAlloc 4096 2 16 (fun _ => 0)) 1).2.mem 12288 % 2 = 0 ∧
      tagNext (allocatePages (newAlloc 4096 2 16 (fun _ => 0)) 1).2.mem 12288
        = tagNext (newAlloc 4096 2 16 (fun _ => 0)).mem 4096)) :=
  ⟨⟨⟨by decide, by decide, by decide, by decide⟩, by decide, by decide, by decide⟩,
    C2_page_split (newAlloc 4096 2 16 (fun _ => 0)) 1
      ⟨by decide, by decide, by decide, by decide⟩ (by decide) 4096 8188 12288
      (by decide) (by decide)⟩

end Backup
